import Mathlib

/-!
Shallow embedding of the incremental PDF word-index builder
(src/Dile_Scanner_OCR.py) and verification of its specification claims.

Python dicts are modelled as insertion-ordered association lists
(List (K × V)); Python sets of pairs as duplicate-free lists.  A Python
set has no specified iteration order, so the one place where set
iteration order is observable in the persisted output (the inner loop of
save_word_map_json, line 67 of the source) takes an explicit enumeration
function sigma; a faithful sigma returns a list with the same members.
Timestamps are integers, page numbers 1-based naturals.
-/

abbrev Name := String
abbrev Token := String
abbrev Page := Nat
abbrev Time := Int
/-- An occurrence location: (document filename, 1-based page number). -/
abbrev Loc := Name × Page
/-- In-memory inverted index: token to set of (file, page), as in word_map. -/
abbrev WordMap := List (Token × List Loc)
/-- Manifest (scan_cache.json): document name to last-seen mtime. -/
abbrev Cache := List (Name × Time)
/-- On-disk index file (word_map.json): token to (file to sorted page list). -/
abbrev IndexJson := List (Token × List (Name × List Page))

/-- Membership-preserving insertion into a Python set modelled as a list. -/
def setInsert [DecidableEq α] (s : List α) (a : α) : List α :=
  if a ∈ s then s else s ++ [a]

/-- Python set.update: insert every element of t into s. -/
def setUnion [DecidableEq α] (s t : List α) : List α :=
  t.foldl setInsert s

/-- Key list of a dict. -/
def keys (d : List (α × β)) : List α := d.map Prod.fst

/-- Python dict lookup d.get(k): value of the first entry with key k. -/
def dictFind [DecidableEq α] (d : List (α × β)) (k : α) : Option β :=
  (d.find? (fun e => e.1 = k)).map Prod.snd

/-- Python defaultdict access-and-mutate d[k] op: update the entry in
place when the key exists, otherwise append (k, f init). -/
def dictUpd [DecidableEq α] (d : List (α × β)) (k : α) (f : β → β) (init : β) :
    List (α × β) :=
  if k ∈ keys d then d.map (fun e => if e.1 = k then (e.1, f e.2) else e)
  else d ++ [(k, f init)]

/-- Python dict assignment d[k] = v. -/
def dictSet [DecidableEq α] (d : List (α × β)) (k : α) (v : β) : List (α × β) :=
  if k ∈ keys d then d.map (fun e => if e.1 = k then (e.1, v) else e)
  else d ++ [(k, v)]

/-- word_map[token].add(loc) (source line 37). -/
def wmAdd (wm : WordMap) (t : Token) (l : Loc) : WordMap :=
  dictUpd wm t (fun s => setInsert s l) []

/-- The token (t) has the occurrence (loc) somewhere in the word map. -/
def wmHas (wm : WordMap) (t : Token) (loc : Loc) : Prop :=
  ∃ e ∈ wm, e.1 = t ∧ loc ∈ e.2

instance (wm : WordMap) (t : Token) (loc : Loc) : Decidable (wmHas wm t loc) :=
  List.decidableBEx _ wm

/-- Abstract content of one PDF: the token list produced for each page by
text extraction (with OCR fallback), and an optional failure point: if
failAt = some k, opening/processing raises after k pages were processed
(k = 0 models a failure of fitz.open itself).  The try/except in
extract_tokens_from_pdf (lines 20-40) catches this. -/
structure PdfContent where
  pages : List (List Token)
  failAt : Option Nat := none
deriving DecidableEq, Repr

/-- Pages actually processed before any exception. -/
def pageTokensUpto (c : PdfContent) : List (List Token) :=
  match c.failAt with
  | none => c.pages
  | some k => c.pages.take k

/-- extract_tokens_from_pdf (lines 16-42): builds a token map from the
pages processed before the (possible) exception; the exception is caught,
so the partial map is returned. -/
def extract_tokens_from_pdf (filename : Name) (c : PdfContent) : WordMap :=
  (pageTokensUpto c).enum.foldl
    (fun wm e => e.2.foldl (fun w tok => wmAdd w tok (filename, e.1 + 1)) wm) []

/-- merge_token_maps (lines 44-49): fold every partial map into one map
with merged[token].update(locations). -/
def merge_token_maps (maps : List WordMap) : WordMap :=
  maps.foldl
    (fun merged tm =>
      tm.foldl (fun m e => dictUpd m e.1 (fun s => setUnion s e.2) []) merged) []

/-- load_existing_word_map_json (lines 51-62): rebuild the in-memory set
representation from the on-disk token -> file -> pages structure. -/
def load_existing_word_map_json (j : IndexJson) : WordMap :=
  j.foldl
    (fun wm e =>
      e.2.foldl (fun w fp => fp.2.foldl (fun w2 p => wmAdd w2 e.1 (fp.1, p)) w) wm) []

/-- Pages are sorted ascending on save (sorted(pages), line 72). -/
def sortPages (ps : List Page) : List Page := List.insertionSort (· ≤ ·) ps

/-- One step of the grouping loop of save_word_map_json (line 68):
structured_map[token][file].add(page). -/
def structStep (t0 : Token) (st : List (Token × List (Name × List Page))) (l : Loc) :
    List (Token × List (Name × List Page)) :=
  dictUpd st t0 (fun inner => dictUpd inner l.1 (fun ps => setInsert ps l.2) []) []

/-- The nested defaultdict built by the first loop of save_word_map_json
(lines 65-68), with sigma giving the iteration order of each locations
set. -/
def structFold (sigma : List Loc → List Loc) (wm : WordMap) :
    List (Token × List (Name × List Page)) :=
  wm.foldl (fun st e => (sigma e.2).foldl (structStep e.1) st) []

/-- save_word_map_json (lines 64-79): group occurrences by token and file,
then sort each page set ascending. -/
def save_word_map_json (sigma : List Loc → List Loc) (wm : WordMap) : IndexJson :=
  (structFold sigma wm).map (fun e => (e.1, e.2.map (fun fp => (fp.1, sortPages fp.2))))

/-- Page list recorded in an index file for a given token and file. -/
def pagesOf (j : IndexJson) (t : Token) (f : Name) : List Page :=
  (dictFind ((dictFind j t).getD []) f).getD []

/-- A run aborts with an uncaught Python exception. -/
inductive RunError where
  | keyError (k : Name)
deriving DecidableEq, Repr

deriving instance DecidableEq for Except

instance : DecidableEq (IndexJson × Cache) :=
  @instDecidableEqProd _ _ inferInstance inferInstance

/-- A PDF file on disk: its name, os.path.getmtime value, and content. -/
structure PdfFile where
  name : Name
  mtime : Time
  content : PdfContent
deriving DecidableEq, Repr

/-- The scanned folder: the .pdf entries of os.listdir in listing order. -/
abbrev Folder := List PdfFile

def listPdfNames (folder : Folder) : List Name := folder.map PdfFile.name

def findPdf (folder : Folder) (n : Name) : Option PdfFile :=
  folder.find? (fun f => f.name = n)

/-- Content of the named file; call sites only pass names present in the
folder, so the default is unreachable. -/
def contentOf (folder : Folder) (n : Name) : PdfContent :=
  ((findPdf folder n).map PdfFile.content).getD ⟨[], none⟩

/-- os.path.getmtime; call sites only pass names present in the folder. -/
def mtimeOf (folder : Folder) (n : Name) : Time :=
  ((findPdf folder n).map PdfFile.mtime).getD 0

/-- The addition loop of pdf_check_add (lines 100-101): fold every token's
new locations into the word map with word_map[token].update(locs). -/
def applyAdditions (wm : WordMap) (nd : WordMap) : WordMap :=
  nd.foldl (fun w e => dictUpd w e.1 (fun s => setUnion s e.2) []) wm

/-- pdf_check_add (lines 91-105): extract every listed PDF, merge the
partial maps, fold them into the word map, and record every listed PDF's
mtime in the cache (even a PDF whose extraction failed). -/
def pdf_check_add (new_pdfs : List Name) (wm : WordMap) (cache : Cache)
    (folder : Folder) : WordMap × Cache :=
  if new_pdfs = [] then (wm, cache)
  else
    let token_maps := new_pdfs.map (fun p => extract_tokens_from_pdf p (contentOf folder p))
    let new_data := merge_token_maps token_maps
    let wm2 := applyAdditions wm new_data
    let cache2 := new_pdfs.foldl (fun c p => dictSet c p (mtimeOf folder p)) cache
    (wm2, cache2)

/-- The word-map pruning loop of pdf_check_deleted (lines 110-115): drop
every location of a listed document; delete a token whose set becomes
empty. -/
def removeLocsOfDocs (docs : List Name) (wm : WordMap) : WordMap :=
  wm.filterMap (fun e =>
    if e.2.filter (fun l => decide (l.1 ∉ docs)) = [] then none
    else some (e.1, e.2.filter (fun l => decide (l.1 ∉ docs))))

/-- pdf_check_deleted (lines 107-118): prune the word map, then run
del cache[pdf] for every listed pdf; del raises KeyError on a missing
key, aborting the run. -/
def pdf_check_deleted (deleted : List Name) (wm : WordMap) (cache : Cache) :
    Except RunError (WordMap × Cache) :=
  if deleted = [] then .ok (wm, cache)
  else
    match deleted.find? (fun d => decide (d ∉ keys cache)) with
    | some d => .error (.keyError d)
    | none =>
        .ok (removeLocsOfDocs deleted wm, cache.filter (fun e => decide (e.1 ∉ deleted)))

/-- The modified-PDF rescan (lines 148-153): every current PDF whose
cached mtime (None when uncached) differs from its on-disk mtime. -/
def modifiedScan (folder : Folder) (cache : Cache) : List Name :=
  (listPdfNames folder).filter (fun p => decide (dictFind cache p ≠ some (mtimeOf folder p)))

/-- The persisted checkpoint: word_map.json and scan_cache.json
(none = the file does not exist). -/
structure FS where
  indexFile : Option IndexJson
  cacheFile : Option Cache
deriving DecidableEq, Repr

/-- The cold-start branch (lines 128-138): word_map.json is absent, so
every current PDF is extracted and merged and every current PDF's mtime
is recorded in the (possibly stale) loaded cache. -/
def coldStart (folder : Folder) (cache0 : Cache) : WordMap × Cache :=
  (merge_token_maps
      ((listPdfNames folder).map (fun p => extract_tokens_from_pdf p (contentOf folder p))),
   (listPdfNames folder).foldl (fun c p => dictSet c p (mtimeOf folder p)) cache0)

/-- The add/delete dispatch on the count difference m (lines 141-146):
m > 0 handles only the set difference of new PDFs, m < 0 only the set
difference of deleted PDFs, m = 0 neither. -/
def dispatchOnCount (folder : Folder) (wm0 : WordMap) (cache0 : Cache) :
    Except RunError (WordMap × Cache) :=
  if 0 < (listPdfNames folder).length - ((keys cache0).length : Int) then
    .ok (pdf_check_add ((listPdfNames folder).filter (fun p => decide (p ∉ keys cache0)))
      wm0 cache0 folder)
  else if (listPdfNames folder).length - ((keys cache0).length : Int) < 0 then
    pdf_check_deleted ((keys cache0).filter (fun p => decide (p ∉ listPdfNames folder)))
      wm0 cache0
  else
    .ok (wm0, cache0)

/-- The modified-PDF rescan and re-extraction (lines 148-159): delete and
re-add every PDF whose cached mtime differs from disk. -/
def rescanModified (folder : Folder) (wc1 : WordMap × Cache) :
    Except RunError (WordMap × Cache) :=
  if modifiedScan folder wc1.2 = [] then .ok wc1
  else do
    let wc2 ← pdf_check_deleted (modifiedScan folder wc1.2) wc1.1 wc1.2
    .ok (pdf_check_add (modifiedScan folder wc1.2) wc2.1 wc2.2 folder)

/-- The in-memory computation of build_word_map_with_cache (lines
120-159), before the two saves: cold-start full build when word_map.json
is absent, otherwise the add/delete dispatch on the count difference m
followed by the modified-PDF rescan. -/
def computeRun (folder : Folder) (fs : FS) : Except RunError (WordMap × Cache) :=
  match fs.indexFile with
  | none => .ok (coldStart folder (fs.cacheFile.getD []))
  | some j => do
      let wc1 ← dispatchOnCount folder (load_existing_word_map_json j) (fs.cacheFile.getD [])
      rescanModified folder wc1

/-- build_word_map_with_cache (lines 120-163): run the in-memory
computation, then produce the two files written by save_word_map_json
and save_cache (lines 161-162). -/
def build_word_map_with_cache (folder : Folder) (fs : FS)
    (sigma : List Loc → List Loc) : Except RunError (IndexJson × Cache) :=
  (computeRun folder fs).map (fun wc => (save_word_map_json sigma wc.1, wc.2))

/-- One whole run as a filesystem transformer: on success both files are
replaced; an uncaught exception leaves the checkpoint untouched. -/
def run_build (folder : Folder) (fs : FS) (sigma : List Loc → List Loc) :
    Except RunError FS :=
  (build_word_map_with_cache folder fs sigma).map (fun r => ⟨some r.1, some r.2⟩)

/-- The identity enumeration of a locations set (one admissible iteration
order). -/
def idOrder : List Loc → List Loc := fun l => l

/-- Reversal: another admissible iteration order of the same set. -/
def revOrder : List Loc → List Loc := fun l => l.reverse

/-- The token (t) appears on page (p) of the processed part of a
document's content. -/
def occursIn (c : PdfContent) (t : Token) (p : Page) : Prop :=
  ∃ e ∈ (pageTokensUpto c).enum, p = e.1 + 1 ∧ t ∈ e.2

instance (c : PdfContent) (t : Token) (p : Page) : Decidable (occursIn c t p) :=
  List.decidableBEx _ _

/-- Where a fatal I/O failure strikes a run, relative to the two save
calls at lines 161-162. -/
inductive FatalSite where
  | beforePersist
  | afterIndexSave
deriving DecidableEq, Repr

/-- The checkpoint left behind by a run aborted by a Fatal error:
beforePersist covers any failure up to line 161 (folder enumeration,
stat, load, the KeyError the code itself can raise, or a failure of the
index write itself before it happens); afterIndexSave is a failure of
save_cache after save_word_map_json succeeded. -/
def fsAfterFatal (folder : Folder) (fs : FS) (sigma : List Loc → List Loc) :
    FatalSite → FS
  | .beforePersist => fs
  | .afterIndexSave =>
      match build_word_map_with_cache folder fs sigma with
      | .error _ => fs
      | .ok jc => ⟨some jc.1, fs.cacheFile⟩

/-- An empty checkpoint: neither word_map.json nor scan_cache.json exists. -/
def fsEmpty : FS := ⟨none, none⟩

/-- Folder for the mixed add/remove scenario: only b.pdf is on disk. -/
def folderMixed : Folder := [⟨"b.pdf", 5, ⟨[["z"]], none⟩⟩]

/-- Checkpoint for the mixed scenarios: the index and manifest record
a.pdf, which is no longer on disk. -/
def fsMixed : FS := ⟨some [("x", [("a.pdf", [1])])], some [("a.pdf", 3)]⟩

/-- Folder with two additions (against the one removal in fsMixed). -/
def folderSkew : Folder := [⟨"b.pdf", 5, ⟨[["z"]], none⟩⟩, ⟨"c.pdf", 6, ⟨[], none⟩⟩]

/-- Two documents sharing the token y on their single page. -/
def folderPair : Folder := [⟨"a.pdf", 1, ⟨[["y"]], none⟩⟩, ⟨"b.pdf", 2, ⟨[["y"]], none⟩⟩]

/-- The checkpoint persisted by a cold-start run over folderPair with the
identity enumeration order. -/
def fsPair1 : FS :=
  ⟨some [("y", [("a.pdf", [1]), ("b.pdf", [1])])], some [("a.pdf", 1), ("b.pdf", 2)]⟩

/-- The checkpoint persisted by re-running over folderPair when the set
enumeration happens to come out reversed. -/
def fsPair2 : FS :=
  ⟨some [("y", [("b.pdf", [1]), ("a.pdf", [1])])], some [("a.pdf", 1), ("b.pdf", 2)]⟩

/-- One-document folder used for small concrete runs. -/
def folderOne : Folder := [⟨"a.pdf", 1, ⟨[["x"]], none⟩⟩]

/-- Content whose extraction raises after one of two pages was processed. -/
def cFail : PdfContent := ⟨[["x"], ["y"]], some 1⟩

/-- A batch where a.pdf's extraction fails mid-document and b.pdf's
succeeds. -/
def folderFail : Folder := [⟨"a.pdf", 3, cFail⟩, ⟨"b.pdf", 4, ⟨[["w"]], none⟩⟩]

/-- Well-formedness of the grouped structure: entries non-empty with
duplicate-free inner keys and duplicate-free non-empty page sets. -/
def structWF (st : List (Token × List (Name × List Page))) : Prop :=
  ∀ e ∈ st, e.2 ≠ [] ∧ (keys e.2).Nodup ∧ ∀ fp ∈ e.2, fp.2 ≠ [] ∧ fp.2.Nodup

/-- The shape save_word_map_json always produces: duplicate-free token
keys, every token with a non-empty inner dict over duplicate-free file
keys, every file with a non-empty strictly ascending page list. -/
def canonicalIndex (j : IndexJson) : Prop :=
  (keys j).Nodup ∧ ∀ e ∈ j, e.2 ≠ [] ∧ (keys e.2).Nodup ∧
    ∀ fp ∈ e.2, fp.2 ≠ [] ∧ List.Pairwise (· < ·) fp.2

/-! ### Basic lemmas about the Python set and dict models -/

theorem mem_setInsert [DecidableEq α] {s : List α} {a x : α} :
    x ∈ setInsert s a ↔ x ∈ s ∨ x = a := by
  unfold setInsert
  split
  · next h => exact ⟨Or.inl, fun hx => hx.elim id (fun e => e ▸ h)⟩
  · simp

theorem setInsert_ne_nil [DecidableEq α] (s : List α) (a : α) : setInsert s a ≠ [] := by
  unfold setInsert
  split
  · next h => exact fun hs => by simp [hs] at h
  · simp

theorem setInsert_nodup [DecidableEq α] {s : List α} (h : s.Nodup) (a : α) :
    (setInsert s a).Nodup := by
  unfold setInsert
  split
  · exact h
  · next hn => simp [List.nodup_append, h, hn]

theorem mem_setUnion [DecidableEq α] {s t : List α} {x : α} :
    x ∈ setUnion s t ↔ x ∈ s ∨ x ∈ t := by
  induction t generalizing s with
  | nil => simp [setUnion]
  | cons a t ih =>
    show x ∈ setUnion (setInsert s a) t ↔ _
    rw [ih, mem_setInsert]
    simp [or_assoc]

theorem setUnion_eq_self [DecidableEq α] {s t : List α} (h : ∀ x ∈ t, x ∈ s) :
    setUnion s t = s := by
  induction t generalizing s with
  | nil => rfl
  | cons a t ih =>
    show setUnion (setInsert s a) t = s
    have ha : setInsert s a = s := by
      unfold setInsert; exact if_pos (h a (by simp))
    rw [ha]
    exact ih (fun x hx => h x (by simp [hx]))

theorem mem_keys [DecidableEq α] {d : List (α × β)} {k : α} :
    k ∈ keys d ↔ ∃ e ∈ d, e.1 = k := by
  simp [keys, List.mem_map]

theorem dictFind_eq_none [DecidableEq α] {d : List (α × β)} {k : α} :
    dictFind d k = none ↔ k ∉ keys d := by
  unfold dictFind
  rw [Option.map_eq_none', List.find?_eq_none, mem_keys]
  simp only [decide_eq_true_eq, not_exists, not_and, Prod.forall]

theorem dictFind_mem [DecidableEq α] {d : List (α × β)} {k : α} {v : β}
    (h : dictFind d k = some v) : (k, v) ∈ d := by
  unfold dictFind at h
  rcases Option.map_eq_some'.mp h with ⟨e, he, hv⟩
  have h1 : e.1 = k := by simpa using List.find?_some he
  have h2 : e ∈ d := List.mem_of_find?_eq_some he
  cases e
  simp only at h1 hv
  subst h1; subst hv; exact h2

theorem dictFind_of_mem_nodup [DecidableEq α] {d : List (α × β)} {k : α} {v : β}
    (hn : (keys d).Nodup) (h : (k, v) ∈ d) : dictFind d k = some v := by
  induction d with
  | nil => cases h
  | cons e t ih =>
    have hn' : e.1 ∉ keys t ∧ (keys t).Nodup := by
      simpa [keys, List.nodup_cons] using hn
    rcases List.mem_cons.mp h with rfl | h
    · unfold dictFind
      rw [List.find?_cons_of_pos _ (by simp)]
      rfl
    · have hk : e.1 ≠ k := by
        intro hek
        exact hn'.1 (hek ▸ mem_keys.mpr ⟨(k, v), h, rfl⟩)
      unfold dictFind
      rw [List.find?_cons_of_neg _ (by simpa using hk)]
      exact ih hn'.2 h

theorem find?_map_keyfix [DecidableEq α] (d : List (α × β)) (g : α × β → α × β)
    (hg : ∀ e, (g e).1 = e.1) (x : α) :
    (d.map g).find? (fun e => e.1 = x) = (d.find? (fun e => e.1 = x)).map g := by
  induction d with
  | nil => rfl
  | cons e t ih =>
    simp only [List.map_cons, List.find?_cons, hg e]
    split
    · rfl
    · exact ih

theorem dictSet_eq_dictUpd [DecidableEq α] (d : List (α × β)) (k : α) (v : β) :
    dictSet d k v = dictUpd d k (fun _ => v) v := rfl

theorem keys_dictUpd [DecidableEq α] (d : List (α × β)) (k : α) (f : β → β) (init : β) :
    keys (dictUpd d k f init) = if k ∈ keys d then keys d else keys d ++ [k] := by
  unfold dictUpd
  split
  · unfold keys
    rw [List.map_map]
    apply List.map_congr_left
    intro e _
    by_cases he : e.1 = k <;> simp [he]
  · simp [keys]

theorem mem_keys_dictUpd [DecidableEq α] {d : List (α × β)} {k x : α} {f : β → β} {init : β} :
    x ∈ keys (dictUpd d k f init) ↔ x ∈ keys d ∨ x = k := by
  rw [keys_dictUpd]
  split
  · next h => exact ⟨Or.inl, fun hx => hx.elim id (fun e => e ▸ h)⟩
  · simp

theorem nodup_keys_dictUpd [DecidableEq α] {d : List (α × β)} (k : α) (f : β → β) (init : β)
    (hn : (keys d).Nodup) : (keys (dictUpd d k f init)).Nodup := by
  rw [keys_dictUpd]
  split
  · exact hn
  · next h => simp [List.nodup_append, hn, h]

theorem dictFind_dictUpd [DecidableEq α] (d : List (α × β)) (k x : α) (f : β → β) (init : β) :
    dictFind (dictUpd d k f init) x =
      if x = k then some (f ((dictFind d k).getD init)) else dictFind d x := by
  unfold dictUpd
  by_cases hk : k ∈ keys d
  · rw [if_pos hk]
    have hmap := find?_map_keyfix d (fun e => if e.1 = k then (e.1, f e.2) else e)
      (fun e => by show (if e.1 = k then (e.1, f e.2) else e).1 = e.1; split <;> rfl) x
    unfold dictFind
    rw [hmap]
    by_cases hx : x = k
    · subst hx
      rcases mem_keys.mp hk with ⟨e, he, hek⟩
      have hfind : ∃ e0, d.find? (fun e => e.1 = x) = some e0 ∧ e0.1 = x := by
        have : (d.find? (fun e => e.1 = x)).isSome := by
          rw [List.find?_isSome]
          exact ⟨e, he, by simpa using hek⟩
        rcases Option.isSome_iff_exists.mp this with ⟨e0, he0⟩
        exact ⟨e0, he0, by simpa using List.find?_some he0⟩
      rcases hfind with ⟨e0, he0, hk0⟩
      rw [he0]
      simp [hk0]
    · rcases hfd : d.find? (fun e => e.1 = x) with _ | e0
      · rw [hfd]
        simp [hx]
      · rw [hfd]
        have hk0 : e0.1 = x := by simpa using List.find?_some hfd
        have hne : ¬ (e0.1 = k) := fun h => hx (by rw [← hk0, h])
        simp [hx, hne]
  · rw [if_neg hk]
    have hnone : d.find? (fun e => e.1 = k) = none := by
      rw [List.find?_eq_none]
      intro e he hek
      exact hk (mem_keys.mpr ⟨e, he, by simpa using hek⟩)
    unfold dictFind
    rw [List.find?_append]
    by_cases hx : x = k
    · subst hx
      rw [hnone]
      simp [dictFind, hnone]
    · rcases hfd : d.find? (fun e => e.1 = x) with _ | e0
      · rw [hfd]
        simp [hx, Ne.symm hx]
      · rw [hfd]
        simp [hx]

theorem dictFind_dictSet [DecidableEq α] (d : List (α × β)) (k x : α) (v : β) :
    dictFind (dictSet d k v) x = if x = k then some v else dictFind d x := by
  rw [dictSet_eq_dictUpd, dictFind_dictUpd]

theorem mem_keys_dictSet [DecidableEq α] {d : List (α × β)} {k x : α} {v : β} :
    x ∈ keys (dictSet d k v) ↔ x ∈ keys d ∨ x = k := by
  rw [dictSet_eq_dictUpd]
  exact mem_keys_dictUpd

theorem nodup_keys_dictSet [DecidableEq α] {d : List (α × β)} (k : α) (v : β)
    (hn : (keys d).Nodup) : (keys (dictSet d k v)).Nodup := by
  rw [dictSet_eq_dictUpd]
  exact nodup_keys_dictUpd _ _ _ hn

theorem mem_dictUpd [DecidableEq α] {d : List (α × β)} {k : α} {f : β → β} {init : β}
    {e : α × β} (he : e ∈ dictUpd d k f init) :
    e ∈ d ∨ ∃ v, e = (k, f v) ∧ ((k, v) ∈ d ∨ v = init) := by
  unfold dictUpd at he
  split at he
  · rcases List.mem_map.mp he with ⟨e', he', heq⟩
    by_cases h : e'.1 = k
    · right
      refine ⟨e'.2, ?_, Or.inl ?_⟩
      · rw [← heq]; simp [h]
      · rw [← h]; exact he'
    · left
      rw [← heq]
      simpa [h] using he'
  · rcases List.mem_append.mp he with h | h
    · exact Or.inl h
    · right
      exact ⟨init, by simpa using h, Or.inr rfl⟩

/-! ### Extensional characterization of the word-map operations -/

theorem wmHas_cons {e : Token × List Loc} {wm : WordMap} {t : Token} {loc : Loc} :
    wmHas (e :: wm) t loc ↔ (e.1 = t ∧ loc ∈ e.2) ∨ wmHas wm t loc := by
  unfold wmHas
  simp [List.mem_cons, exists_eq_or_imp]

theorem wmHas_dictUpdUnion (wm : WordMap) (k : Token) (ls : List Loc) (t : Token) (loc : Loc) :
    wmHas (dictUpd wm k (fun s => setUnion s ls) []) t loc ↔
      wmHas wm t loc ∨ (k = t ∧ loc ∈ ls) := by
  constructor
  · rintro ⟨e, he, het, hloc⟩
    rcases mem_dictUpd he with h | ⟨v, rfl, hv⟩
    · exact Or.inl ⟨e, h, het, hloc⟩
    · replace het : k = t := het
      replace hloc : loc ∈ setUnion v ls := hloc
      rcases mem_setUnion.mp hloc with h1 | h1
      · rcases hv with hv | rfl
        · exact Or.inl ⟨(k, v), hv, het, h1⟩
        · cases h1
      · exact Or.inr ⟨het, h1⟩
  · unfold dictUpd
    rintro (⟨e, he, het, hloc⟩ | ⟨rfl, hloc⟩)
    · split
      · refine ⟨if e.1 = k then (e.1, setUnion e.2 ls) else e,
          List.mem_map.mpr ⟨e, he, rfl⟩, ?_, ?_⟩
        · split <;> exact het
        · split
          · exact mem_setUnion.mpr (Or.inl hloc)
          · exact hloc
      · exact ⟨e, List.mem_append.mpr (Or.inl he), het, hloc⟩
    · split
      · next hk =>
        rcases mem_keys.mp hk with ⟨e, he, hek⟩
        exact ⟨(e.1, setUnion e.2 ls), List.mem_map.mpr ⟨e, he, by rw [if_pos hek]⟩,
          hek, mem_setUnion.mpr (Or.inr hloc)⟩
      · exact ⟨(k, setUnion [] ls), List.mem_append.mpr (Or.inr (by simp)),
          rfl, mem_setUnion.mpr (Or.inr hloc)⟩

theorem wmAdd_eq_union (wm : WordMap) (t : Token) (l : Loc) :
    wmAdd wm t l = dictUpd wm t (fun s => setUnion s [l]) [] := rfl

theorem wmHas_wmAdd {wm : WordMap} {t0 : Token} {l : Loc} {t : Token} {loc : Loc} :
    wmHas (wmAdd wm t0 l) t loc ↔ wmHas wm t loc ∨ (t0 = t ∧ l = loc) := by
  rw [wmAdd_eq_union, wmHas_dictUpdUnion]
  simp [eq_comm]

theorem wmHas_foldl_wmAdd {γ : Type} (xs : List γ) (tk : γ → Token) (g : γ → Loc)
    (wm : WordMap) (t : Token) (loc : Loc) :
    wmHas (xs.foldl (fun w x => wmAdd w (tk x) (g x)) wm) t loc ↔
      wmHas wm t loc ∨ ∃ x ∈ xs, tk x = t ∧ g x = loc := by
  induction xs generalizing wm with
  | nil => simp
  | cons a xs ih =>
    rw [List.foldl_cons, ih, wmHas_wmAdd]
    simp only [List.mem_cons, exists_eq_or_imp]
    tauto

theorem wmHas_applyAdditions (wm nd : WordMap) (t : Token) (loc : Loc) :
    wmHas (applyAdditions wm nd) t loc ↔ wmHas wm t loc ∨ wmHas nd t loc := by
  induction nd generalizing wm with
  | nil => simp [applyAdditions, wmHas]
  | cons a nd ih =>
    show wmHas (applyAdditions (dictUpd wm a.1 (fun s => setUnion s a.2) []) nd) t loc ↔ _
    rw [ih, wmHas_dictUpdUnion, wmHas_cons]
    tauto

theorem merge_eq_foldl (maps : List WordMap) :
    merge_token_maps maps = maps.foldl applyAdditions [] := rfl

theorem wmHas_merge (maps : List WordMap) (t : Token) (loc : Loc) :
    wmHas (merge_token_maps maps) t loc ↔ ∃ tm ∈ maps, wmHas tm t loc := by
  rw [merge_eq_foldl]
  have aux : ∀ (ms : List WordMap) (wm : WordMap),
      wmHas (ms.foldl applyAdditions wm) t loc ↔
        wmHas wm t loc ∨ ∃ tm ∈ ms, wmHas tm t loc := by
    intro ms
    induction ms with
    | nil => simp
    | cons a ms ih =>
      intro wm
      rw [List.foldl_cons, ih, wmHas_applyAdditions]
      simp only [List.mem_cons, exists_eq_or_imp]
      tauto
  rw [aux]
  simp [wmHas]

theorem wmHas_pageFold (filename : Name) (L : List (Nat × List Token)) (wm : WordMap)
    (t : Token) (loc : Loc) :
    wmHas (L.foldl (fun w e => e.2.foldl (fun w2 tok => wmAdd w2 tok (filename, e.1 + 1)) w) wm)
        t loc ↔
      wmHas wm t loc ∨ ∃ e ∈ L, t ∈ e.2 ∧ (filename, e.1 + 1) = loc := by
  induction L generalizing wm with
  | nil => simp
  | cons a L ih =>
    rw [List.foldl_cons, ih,
      wmHas_foldl_wmAdd a.2 (fun tok => tok) (fun _ => (filename, a.1 + 1)) wm t loc]
    simp only [List.mem_cons, exists_eq_or_imp]
    constructor
    · rintro ((h | ⟨tok, htok, rfl, hloc⟩) | h)
      · exact Or.inl h
      · exact Or.inr (Or.inl ⟨htok, hloc⟩)
      · exact Or.inr (Or.inr h)
    · rintro (h | ⟨htok, hloc⟩ | h)
      · exact Or.inl (Or.inl h)
      · exact Or.inl (Or.inr ⟨t, htok, rfl, hloc⟩)
      · exact Or.inr h

theorem wmHas_extract (filename : Name) (c : PdfContent) (t : Token) (loc : Loc) :
    wmHas (extract_tokens_from_pdf filename c) t loc ↔
      loc.1 = filename ∧ occursIn c t loc.2 := by
  unfold extract_tokens_from_pdf
  rw [wmHas_pageFold]
  unfold occursIn
  constructor
  · rintro (h | ⟨e, he, htok, rfl⟩)
    · exact absurd h (by simp [wmHas])
    · exact ⟨rfl, e, he, rfl, htok⟩
  · rintro ⟨h1, e, he, h2, h3⟩
    refine Or.inr ⟨e, he, h3, ?_⟩
    cases loc
    simp only at h1 h2
    rw [h1, h2]

theorem wmHas_entryFold (tk : Token) (fps : List (Name × List Page)) (wm : WordMap)
    (t : Token) (loc : Loc) :
    wmHas (fps.foldl (fun w fp => fp.2.foldl (fun w2 p => wmAdd w2 tk (fp.1, p)) w) wm) t loc ↔
      wmHas wm t loc ∨ (tk = t ∧ ∃ fp ∈ fps, fp.1 = loc.1 ∧ loc.2 ∈ fp.2) := by
  induction fps generalizing wm with
  | nil => simp
  | cons a fps ih =>
    rw [List.foldl_cons, ih, wmHas_foldl_wmAdd a.2 (fun _ => tk) (fun p => (a.1, p)) wm t loc]
    simp only [List.mem_cons, exists_eq_or_imp]
    constructor
    · rintro ((h | ⟨p, hp, htk, rfl⟩) | ⟨htk, h⟩)
      · exact Or.inl h
      · exact Or.inr ⟨htk, Or.inl ⟨rfl, hp⟩⟩
      · exact Or.inr ⟨htk, Or.inr h⟩
    · rintro (h | ⟨htk, ⟨hfp, hp⟩ | h⟩)
      · exact Or.inl (Or.inl h)
      · refine Or.inl (Or.inr ⟨loc.2, hp, htk, ?_⟩)
        cases loc
        simp only at hfp ⊢
        rw [hfp]
      · exact Or.inr ⟨htk, h⟩

theorem wmHas_load (j : IndexJson) (t : Token) (loc : Loc) :
    wmHas (load_existing_word_map_json j) t loc ↔
      ∃ e ∈ j, e.1 = t ∧ ∃ fp ∈ e.2, fp.1 = loc.1 ∧ loc.2 ∈ fp.2 := by
  unfold load_existing_word_map_json
  have aux : ∀ (js : IndexJson) (wm : WordMap),
      wmHas (js.foldl
          (fun w e => e.2.foldl (fun w1 fp => fp.2.foldl (fun w2 p => wmAdd w2 e.1 (fp.1, p)) w1) w)
          wm) t loc ↔
        wmHas wm t loc ∨ ∃ e ∈ js, e.1 = t ∧ ∃ fp ∈ e.2, fp.1 = loc.1 ∧ loc.2 ∈ fp.2 := by
    intro js
    induction js with
    | nil => simp
    | cons a js ih =>
      intro wm
      rw [List.foldl_cons, ih, wmHas_entryFold]
      simp only [List.mem_cons, exists_eq_or_imp]
      rw [or_assoc]
  rw [aux]
  simp [wmHas]

theorem wmHas_removeLocs (docs : List Name) (wm : WordMap) (t : Token) (loc : Loc) :
    wmHas (removeLocsOfDocs docs wm) t loc ↔ wmHas wm t loc ∧ loc.1 ∉ docs := by
  unfold removeLocsOfDocs wmHas
  constructor
  · rintro ⟨e, he, het, hloc⟩
    rcases List.mem_filterMap.mp he with ⟨a, ha, hfa⟩
    split at hfa
    · cases hfa
    · rcases Option.some_inj.mp hfa with rfl
      replace het : a.1 = t := het
      replace hloc : loc ∈ a.2.filter (fun l => decide (l.1 ∉ docs)) := hloc
      rcases List.mem_filter.mp hloc with ⟨hmem, hdec⟩
      exact ⟨⟨a, ha, het, hmem⟩, by simpa using hdec⟩
  · rintro ⟨⟨e, he, het, hloc⟩, hnd⟩
    have hmem : loc ∈ e.2.filter (fun l => decide (l.1 ∉ docs)) :=
      List.mem_filter.mpr ⟨hloc, by simpa using hnd⟩
    have hne : e.2.filter (fun l => decide (l.1 ∉ docs)) ≠ [] := by
      intro h0
      rw [h0] at hmem
      cases hmem
    refine ⟨(e.1, e.2.filter (fun l => decide (l.1 ∉ docs))), ?_, het, hmem⟩
    exact List.mem_filterMap.mpr ⟨e, he, by rw [if_neg hne]⟩

/-! ### Cache (manifest) lemmas -/

theorem dictFind_foldl_dictSet [DecidableEq α] (ns : List α) (g : α → β)
    (c : List (α × β)) (x : α) :
    dictFind (ns.foldl (fun c2 p => dictSet c2 p (g p)) c) x =
      if x ∈ ns then some (g x) else dictFind c x := by
  induction ns generalizing c with
  | nil => simp
  | cons a ns ih =>
    rw [List.foldl_cons, ih]
    by_cases hn : x ∈ ns
    · simp [hn, List.mem_cons]
    · by_cases ha : x = a
      · subst ha
        simp [hn, dictFind_dictSet]
      · simp [hn, ha, dictFind_dictSet, List.mem_cons]

theorem mem_keys_foldl_dictSet [DecidableEq α] (ns : List α) (g : α → β)
    (c : List (α × β)) (x : α) :
    x ∈ keys (ns.foldl (fun c2 p => dictSet c2 p (g p)) c) ↔ x ∈ keys c ∨ x ∈ ns := by
  induction ns generalizing c with
  | nil => simp
  | cons a ns ih =>
    rw [List.foldl_cons, ih, mem_keys_dictSet]
    simp [List.mem_cons]
    tauto

theorem nodup_keys_foldl_dictSet [DecidableEq α] (ns : List α) (g : α → β)
    (c : List (α × β)) (hn : (keys c).Nodup) :
    (keys (ns.foldl (fun c2 p => dictSet c2 p (g p)) c)).Nodup := by
  induction ns generalizing c with
  | nil => exact hn
  | cons a ns ih =>
    rw [List.foldl_cons]
    exact ih _ (nodup_keys_dictSet _ _ hn)

theorem keys_filter_sublist [DecidableEq α] (c : List (α × β)) (q : α × β → Bool) :
    (keys (c.filter q)).Sublist (keys c) :=
  (List.filter_sublist c).map Prod.fst

theorem nodup_keys_filter [DecidableEq α] {c : List (α × β)} (q : α × β → Bool)
    (hn : (keys c).Nodup) : (keys (c.filter q)).Nodup :=
  (keys_filter_sublist c q).nodup hn

theorem mem_keys_filter_not [DecidableEq α] {c : List (α × β)} {ds : List α} {x : α} :
    x ∈ keys (c.filter (fun e => decide (e.1 ∉ ds))) ↔ x ∈ keys c ∧ x ∉ ds := by
  constructor
  · intro h
    rcases mem_keys.mp h with ⟨e, he, hex⟩
    rcases List.mem_filter.mp he with ⟨hmem, hdec⟩
    exact ⟨mem_keys.mpr ⟨e, hmem, hex⟩, hex ▸ (by simpa using hdec)⟩
  · rintro ⟨h, hd⟩
    rcases mem_keys.mp h with ⟨e, he, hex⟩
    exact mem_keys.mpr ⟨e, List.mem_filter.mpr ⟨he, by simpa using hex ▸ hd⟩, hex⟩

theorem dictFind_filter_not [DecidableEq α] (c : List (α × β)) (ds : List α) (x : α) :
    dictFind (c.filter (fun e => decide (e.1 ∉ ds))) x =
      if x ∈ ds then none else dictFind c x := by
  induction c with
  | nil => split <;> rfl
  | cons e c ih =>
    by_cases hd : e.1 ∈ ds
    · rw [List.filter_cons_of_neg (by simpa using hd), ih]
      by_cases hx : x = e.1
      · subst hx
        simp [hd]
      · unfold dictFind
        rw [List.find?_cons_of_neg _ (by simpa using fun h => hx h.symm)]
    · rw [List.filter_cons_of_pos (by simpa using hd)]
      by_cases hx : x = e.1
      · subst hx
        unfold dictFind
        rw [List.find?_cons_of_pos _ (by simp), List.find?_cons_of_pos _ (by simp)]
        simp [hd]
      · unfold dictFind at ih ⊢
        rw [List.find?_cons_of_neg _ (by simpa using fun h => hx h.symm),
          List.find?_cons_of_neg _ (by simpa using fun h => hx h.symm)]
        exact ih

/-- Destructuring a successful pdf_check_deleted: either the guard was
empty, or every listed name was cached and the prune/delete happened. -/
theorem pdf_check_deleted_ok {deleted : List Name} {wm : WordMap} {cache : Cache}
    {wc : WordMap × Cache} (h : pdf_check_deleted deleted wm cache = .ok wc) :
    (deleted = [] ∧ wc = (wm, cache)) ∨
      ((∀ d ∈ deleted, d ∈ keys cache) ∧
        wc = (removeLocsOfDocs deleted wm, cache.filter (fun e => decide (e.1 ∉ deleted)))) := by
  unfold pdf_check_deleted at h
  split at h
  · next hd => exact Or.inl ⟨hd, by cases h; rfl⟩
  · split at h
    · cases h
    · next hfind =>
      refine Or.inr ⟨?_, by cases h; rfl⟩
      intro d hd
      by_contra hmem
      rw [List.find?_eq_none] at hfind
      exact hfind d hd (by simpa using hmem)

/-- pdf_check_deleted raises KeyError exactly when some listed name is
missing from the cache (and the list is non-empty). -/
theorem pdf_check_deleted_error {deleted : List Name} {wm : WordMap} {cache : Cache}
    (hne : deleted ≠ []) (hmiss : ∃ d ∈ deleted, d ∉ keys cache) :
    ∃ d ∈ deleted, d ∉ keys cache ∧
      pdf_check_deleted deleted wm cache = .error (.keyError d) := by
  unfold pdf_check_deleted
  rw [if_neg hne]
  rcases hfind : deleted.find? (fun d => decide (d ∉ keys cache)) with _ | d
  · rcases hmiss with ⟨d, hd, hdk⟩
    rw [List.find?_eq_none] at hfind
    exact absurd (by simpa using hfind d hd) (by simpa using hdk)
  · exact ⟨d, List.mem_of_find?_eq_some hfind, by simpa using List.find?_some hfind, rfl⟩

/-! ### The save path: grouping, pruning-on-save, sortedness -/

theorem dictUpd_ne_nil [DecidableEq α] (d : List (α × β)) (k : α) (f : β → β) (init : β) :
    dictUpd d k f init ≠ [] := by
  unfold dictUpd
  split
  · next h =>
    intro hmap
    rw [List.map_eq_nil_iff] at hmap
    subst hmap
    simp [keys] at h
  · simp

theorem mem_sortPages {ps : List Page} {p : Page} : p ∈ sortPages ps ↔ p ∈ ps :=
  (List.perm_insertionSort (· ≤ ·) ps).mem_iff

theorem sorted_sortPages (ps : List Page) : List.Sorted (· ≤ ·) (sortPages ps) :=
  List.sorted_insertionSort (· ≤ ·) ps

theorem nodup_sortPages {ps : List Page} (h : ps.Nodup) : (sortPages ps).Nodup :=
  ((List.perm_insertionSort (· ≤ ·) ps).nodup_iff).mpr h

theorem pairwise_lt_sortPages {ps : List Page} (h : ps.Nodup) :
    List.Pairwise (· < ·) (sortPages ps) := by
  have h1 := sorted_sortPages ps
  have h2 := nodup_sortPages h
  exact (List.Pairwise.and h1 h2).imp (fun hab => lt_of_le_of_ne hab.1 hab.2)

theorem structWF_structStep {st : List (Token × List (Name × List Page))} (t0 : Token)
    (l : Loc) (h : structWF st) : structWF (structStep t0 st l) := by
  intro e he
  rcases mem_dictUpd he with hmem | ⟨v, rfl, hv⟩
  · exact h e hmem
  · refine ⟨?_, ?_, ?_⟩
    · show dictUpd v l.1 (fun ps => setInsert ps l.2) [] ≠ []
      exact dictUpd_ne_nil _ _ _ _
    · show (keys (dictUpd v l.1 (fun ps => setInsert ps l.2) [])).Nodup
      apply nodup_keys_dictUpd
      rcases hv with hv | rfl
      · exact (h _ hv).2.1
      · simp [keys]
    · intro fp hfp
      replace hfp : fp ∈ dictUpd v l.1 (fun ps => setInsert ps l.2) [] := hfp
      rcases mem_dictUpd hfp with hmem2 | ⟨ps, rfl, hps⟩
      · rcases hv with hv | rfl
        · exact (h _ hv).2.2 fp hmem2
        · cases hmem2
      · refine ⟨setInsert_ne_nil _ _, ?_⟩
        apply setInsert_nodup
        rcases hps with hps | rfl
        · rcases hv with hv | rfl
          · exact ((h _ hv).2.2 _ hps).2
          · cases hps
        · simp

theorem structWF_locFold (t0 : Token) (ls : List Loc)
    (st : List (Token × List (Name × List Page))) (h : structWF st) :
    structWF (ls.foldl (structStep t0) st) := by
  induction ls generalizing st with
  | nil => exact h
  | cons a ls ih => exact ih _ (structWF_structStep t0 a h)

theorem structWF_structFold (sigma : List Loc → List Loc) (wm : WordMap) :
    structWF (structFold sigma wm) := by
  unfold structFold
  have aux : ∀ (es : WordMap) (st : List (Token × List (Name × List Page))),
      structWF st → structWF (es.foldl (fun st2 e => (sigma e.2).foldl (structStep e.1) st2) st) := by
    intro es
    induction es with
    | nil => exact fun st h => h
    | cons a es ih => exact fun st h => ih _ (structWF_locFold a.1 (sigma a.2) st h)
  exact aux wm [] (fun e he => absurd he (List.not_mem_nil e))

theorem nodup_keys_locFold (t0 : Token) (ls : List Loc)
    (st : List (Token × List (Name × List Page))) (h : (keys st).Nodup) :
    (keys (ls.foldl (structStep t0) st)).Nodup := by
  induction ls generalizing st with
  | nil => exact h
  | cons a ls ih => exact ih _ (nodup_keys_dictUpd _ _ _ h)

theorem nodup_keys_structFold (sigma : List Loc → List Loc) (wm : WordMap) :
    (keys (structFold sigma wm)).Nodup := by
  unfold structFold
  have aux : ∀ (es : WordMap) (st : List (Token × List (Name × List Page))),
      (keys st).Nodup →
      (keys (es.foldl (fun st2 e => (sigma e.2).foldl (structStep e.1) st2) st)).Nodup := by
    intro es
    induction es with
    | nil => exact fun st h => h
    | cons a es ih => exact fun st h => ih _ (nodup_keys_locFold a.1 (sigma a.2) st h)
  exact aux wm [] (by simp [keys])

theorem mem_pagesOf_structStep (t0 : Token) (l : Loc)
    (st : List (Token × List (Name × List Page))) (t : Token) (f : Name) (p : Page) :
    p ∈ pagesOf (structStep t0 st l) t f ↔
      p ∈ pagesOf st t f ∨ (t = t0 ∧ f = l.1 ∧ p = l.2) := by
  unfold structStep pagesOf
  rw [dictFind_dictUpd]
  by_cases ht : t = t0
  · rw [if_pos ht]
    subst ht
    rw [Option.getD_some, dictFind_dictUpd]
    by_cases hf : f = l.1
    · rw [if_pos hf]
      subst hf
      rw [Option.getD_some, mem_setInsert]
      simp
    · rw [if_neg hf]
      simp [hf]
  · rw [if_neg ht]
    simp [ht]

theorem mem_pagesOf_locFold (t0 : Token) (ls : List Loc)
    (st : List (Token × List (Name × List Page))) (t : Token) (f : Name) (p : Page) :
    p ∈ pagesOf (ls.foldl (structStep t0) st) t f ↔
      p ∈ pagesOf st t f ∨ (t = t0 ∧ ∃ l ∈ ls, l.1 = f ∧ l.2 = p) := by
  induction ls generalizing st with
  | nil => simp
  | cons a ls ih =>
    rw [List.foldl_cons, ih, mem_pagesOf_structStep]
    simp only [List.mem_cons, exists_eq_or_imp]
    constructor
    · rintro ((h | ⟨ht, hf, hp⟩) | ⟨ht, h⟩)
      · exact Or.inl h
      · exact Or.inr ⟨ht, Or.inl ⟨hf.symm, hp.symm⟩⟩
      · exact Or.inr ⟨ht, Or.inr h⟩
    · rintro (h | ⟨ht, ⟨hf, hp⟩ | h⟩)
      · exact Or.inl (Or.inl h)
      · exact Or.inl (Or.inr ⟨ht, hf.symm, hp.symm⟩)
      · exact Or.inr ⟨ht, h⟩

theorem mem_pagesOf_structFold (sigma : List Loc → List Loc) (wm : WordMap)
    (t : Token) (f : Name) (p : Page) :
    p ∈ pagesOf (structFold sigma wm) t f ↔
      ∃ e ∈ wm, e.1 = t ∧ ∃ l ∈ sigma e.2, l.1 = f ∧ l.2 = p := by
  unfold structFold
  have aux : ∀ (es : WordMap) (st : List (Token × List (Name × List Page))),
      p ∈ pagesOf (es.foldl (fun st2 e => (sigma e.2).foldl (structStep e.1) st2) st) t f ↔
        p ∈ pagesOf st t f ∨ ∃ e ∈ es, e.1 = t ∧ ∃ l ∈ sigma e.2, l.1 = f ∧ l.2 = p := by
    intro es
    induction es with
    | nil => simp
    | cons a es ih =>
      intro st
      rw [List.foldl_cons, ih, mem_pagesOf_locFold]
      simp only [List.mem_cons, exists_eq_or_imp]
      constructor
      · rintro ((h | ⟨ht, h⟩) | h)
        · exact Or.inl h
        · exact Or.inr (Or.inl ⟨ht.symm, h⟩)
        · exact Or.inr (Or.inr h)
      · rintro (h | ⟨ht, h⟩ | h)
        · exact Or.inl (Or.inl h)
        · exact Or.inl (Or.inr ⟨ht.symm, h⟩)
        · exact Or.inr h
  rw [aux]
  simp [pagesOf, dictFind]

theorem find?_map_keyval [DecidableEq α] (d : List (α × β)) (h : β → γ) (x : α) :
    (d.map (fun e => (e.1, h e.2))).find? (fun e => e.1 = x) =
      (d.find? (fun e => e.1 = x)).map (fun e => (e.1, h e.2)) := by
  induction d with
  | nil => rfl
  | cons e t ih =>
    by_cases hx : e.1 = x
    · rw [List.map_cons, List.find?_cons_of_pos _ (by simpa using hx),
        List.find?_cons_of_pos _ (by simpa using hx)]
      rfl
    · rw [List.map_cons, List.find?_cons_of_neg _ (by simpa using hx),
        List.find?_cons_of_neg _ (by simpa using hx)]
      exact ih

theorem dictFind_map_val [DecidableEq α] (d : List (α × β)) (h : β → γ) (x : α) :
    dictFind (d.map (fun e => (e.1, h e.2))) x = (dictFind d x).map h := by
  unfold dictFind
  rw [find?_map_keyval d h x]
  cases d.find? (fun e => decide (e.1 = x)) <;> rfl

theorem pagesOf_save (sigma : List Loc → List Loc) (wm : WordMap) (t : Token) (f : Name) :
    pagesOf (save_word_map_json sigma wm) t f =
      sortPages (pagesOf (structFold sigma wm) t f) := by
  unfold save_word_map_json pagesOf
  rw [dictFind_map_val]
  rcases hdt : dictFind (structFold sigma wm) t with _ | v
  · rfl
  · simp only [Option.map_some', Option.getD_some]
    rw [dictFind_map_val]
    rcases hdf : dictFind v f with _ | ps <;> rfl

theorem mem_pagesOf_save (sigma : List Loc → List Loc)
    (hsig : ∀ (l : List Loc) (x : Loc), x ∈ sigma l ↔ x ∈ l)
    (wm : WordMap) (t : Token) (f : Name) (p : Page) :
    p ∈ pagesOf (save_word_map_json sigma wm) t f ↔ wmHas wm t (f, p) := by
  rw [pagesOf_save, mem_sortPages, mem_pagesOf_structFold]
  unfold wmHas
  constructor
  · rintro ⟨e, he, het, l, hl, hlf, hlp⟩
    refine ⟨e, he, het, ?_⟩
    have : l = (f, p) := by
      cases l
      simp only at hlf hlp
      rw [hlf, hlp]
    exact this ▸ (hsig e.2 l).mp hl
  · rintro ⟨e, he, het, hloc⟩
    exact ⟨e, he, het, (f, p), (hsig e.2 (f, p)).mpr hloc, rfl, rfl⟩

theorem sortPages_ne_nil {ps : List Page} (h : ps ≠ []) : sortPages ps ≠ [] := by
  intro h0
  apply h
  have hlen := (List.perm_insertionSort (· ≤ ·) ps).length_eq
  rw [show List.insertionSort (· ≤ ·) ps = sortPages ps from rfl, h0] at hlen
  exact List.eq_nil_of_length_eq_zero hlen.symm

theorem keys_map_val (d : List (α × β)) (h : β → γ) :
    keys (d.map (fun e => (e.1, h e.2))) = keys d := by
  unfold keys
  rw [List.map_map]
  rfl

theorem save_canonical (sigma : List Loc → List Loc) (wm : WordMap) :
    canonicalIndex (save_word_map_json sigma wm) := by
  have hwf := structWF_structFold sigma wm
  constructor
  · unfold save_word_map_json
    rw [keys_map_val]
    exact nodup_keys_structFold sigma wm
  · intro e he
    rcases List.mem_map.mp he with ⟨a, ha, rfl⟩
    rcases hwf a ha with ⟨hne, hnk, hfp⟩
    refine ⟨by simpa using hne, ?_, ?_⟩
    · show (keys (a.2.map (fun fp => (fp.1, sortPages fp.2)))).Nodup
      rw [keys_map_val]
      exact hnk
    · intro fp hfpm
      rcases List.mem_map.mp hfpm with ⟨b, hb, rfl⟩
      rcases hfp b hb with ⟨hbne, hbnd⟩
      exact ⟨sortPages_ne_nil hbne, pairwise_lt_sortPages hbnd⟩

theorem eq_of_sorted_lt_mem_iff {l1 l2 : List Page} (h1 : List.Pairwise (· < ·) l1)
    (h2 : List.Pairwise (· < ·) l2) (hm : ∀ p, p ∈ l1 ↔ p ∈ l2) : l1 = l2 := by
  have hn1 : l1.Nodup := h1.imp (fun hab => ne_of_lt hab)
  have hn2 : l2.Nodup := h2.imp (fun hab => ne_of_lt hab)
  have hperm : l1.Perm l2 := (List.perm_ext_iff_of_nodup hn1 hn2).mpr hm
  exact List.eq_of_perm_of_sorted hperm (h1.imp (fun hab => le_of_lt hab))
    (h2.imp (fun hab => le_of_lt hab))

theorem eq_of_mem_nodup_keys [DecidableEq α] {d : List (α × β)} {e e' : α × β}
    (hn : (keys d).Nodup) (he : e ∈ d) (he' : e' ∈ d) (hk : e.1 = e'.1) : e = e' := by
  have h1 : dictFind d e.1 = some e.2 := by
    apply dictFind_of_mem_nodup hn
    cases e
    exact he
  have h2 : dictFind d e'.1 = some e'.2 := by
    apply dictFind_of_mem_nodup hn
    cases e'
    exact he'
  rw [hk, h2] at h1
  have hv : e.2 = e'.2 := (Option.some_inj.mp h1).symm
  cases e; cases e'
  simp only at hk hv
  rw [hk, hv]

theorem mem_pagesOf_of_canonical {j : IndexJson} (hc : canonicalIndex j)
    (t : Token) (f : Name) (p : Page) :
    p ∈ pagesOf j t f ↔ ∃ e ∈ j, e.1 = t ∧ ∃ fp ∈ e.2, fp.1 = f ∧ p ∈ fp.2 := by
  unfold pagesOf
  constructor
  · intro hp
    rcases hjt : dictFind j t with _ | v
    · rw [hjt] at hp
      cases hp
    · rw [hjt] at hp
      simp only [Option.getD_some] at hp
      rcases hvf : dictFind v f with _ | ps
      · rw [hvf] at hp
        cases hp
      · rw [hvf] at hp
        simp only [Option.getD_some] at hp
        exact ⟨(t, v), dictFind_mem hjt, rfl, (f, ps), dictFind_mem hvf, rfl, hp⟩
  · rintro ⟨e, he, rfl, fp, hfp, rfl, hp⟩
    have h1 : dictFind j e.1 = some e.2 := by
      apply dictFind_of_mem_nodup hc.1
      cases e
      exact he
    have h2 : dictFind e.2 fp.1 = some fp.2 := by
      apply dictFind_of_mem_nodup (hc.2 e he).2.1
      cases fp
      exact hfp
    rw [h1, Option.getD_some, h2, Option.getD_some]
    exact hp

theorem pagesOf_sorted_of_canonical {j : IndexJson} (hc : canonicalIndex j)
    (t : Token) (f : Name) : List.Pairwise (· < ·) (pagesOf j t f) := by
  unfold pagesOf
  rcases hjt : dictFind j t with _ | v
  · exact List.Pairwise.nil
  · simp only [Option.getD_some]
    rcases hvf : dictFind v f with _ | ps
    · exact List.Pairwise.nil
    · simp only [Option.getD_some]
      exact ((hc.2 _ (dictFind_mem hjt)).2.2 _ (dictFind_mem hvf)).2

/-! ### Key order: save and load preserve the token listing order -/

theorem keys_structStep (t0 : Token) (st : List (Token × List (Name × List Page))) (l : Loc) :
    keys (structStep t0 st l) = if t0 ∈ keys st then keys st else keys st ++ [t0] :=
  keys_dictUpd st t0 _ []

theorem keys_locFold_of_mem (t0 : Token) (ls : List Loc)
    (st : List (Token × List (Name × List Page))) (h : t0 ∈ keys st) :
    keys (ls.foldl (structStep t0) st) = keys st := by
  induction ls generalizing st with
  | nil => rfl
  | cons a ls ih =>
    rw [List.foldl_cons, ih _ (by rw [keys_structStep, if_pos h]; exact h),
      keys_structStep, if_pos h]

theorem keys_locFold_fresh (t0 : Token) (ls : List Loc)
    (st : List (Token × List (Name × List Page))) (hne : ls ≠ []) (h : t0 ∉ keys st) :
    keys (ls.foldl (structStep t0) st) = keys st ++ [t0] := by
  rcases ls with _ | ⟨a, ls⟩
  · exact absurd rfl hne
  · rw [List.foldl_cons,
      keys_locFold_of_mem t0 ls _ (by rw [keys_structStep, if_neg h]; simp),
      keys_structStep, if_neg h]

theorem keys_structFold_eq (sigma : List Loc → List Loc) (wm : WordMap)
    (hn : (keys wm).Nodup) (hne : ∀ e ∈ wm, sigma e.2 ≠ []) :
    keys (structFold sigma wm) = keys wm := by
  unfold structFold
  have aux : ∀ (es : WordMap) (st : List (Token × List (Name × List Page))),
      (keys es).Nodup → (∀ e ∈ es, sigma e.2 ≠ []) → (∀ k ∈ keys es, k ∉ keys st) →
      keys (es.foldl (fun st2 e => (sigma e.2).foldl (structStep e.1) st2) st) =
        keys st ++ keys es := by
    intro es
    induction es with
    | nil => intro st _ _ _; simp [keys]
    | cons a es ih =>
      intro st hnd hnes hdisj
      have hnd' : a.1 ∉ keys es ∧ (keys es).Nodup := by
        simpa [keys, List.nodup_cons] using hnd
      rw [List.foldl_cons,
        ih _ hnd'.2 (fun e he => hnes e (List.mem_cons_of_mem a he)) ?_,
        keys_locFold_fresh a.1 (sigma a.2) st (hnes a (List.mem_cons_self a es))
          (hdisj a.1 (by simp [keys])), List.append_assoc]
      · rfl
      · intro k hk
        rw [keys_locFold_fresh a.1 (sigma a.2) st (hnes a (List.mem_cons_self a es))
          (hdisj a.1 (by simp [keys]))]
        simp only [List.mem_append, List.mem_singleton]
        rintro (h | rfl)
        · exact hdisj k (List.mem_cons_of_mem a.1 hk) h
        · exact hnd'.1 hk
  rw [aux wm [] hn hne (by simp [keys])]
  rfl

theorem keys_save_eq (sigma : List Loc → List Loc) (wm : WordMap)
    (hn : (keys wm).Nodup) (hne : ∀ e ∈ wm, sigma e.2 ≠ []) :
    keys (save_word_map_json sigma wm) = keys wm := by
  unfold save_word_map_json
  rw [keys_map_val]
  exact keys_structFold_eq sigma wm hn hne

theorem keys_wmAdd (wm : WordMap) (tk : Token) (l : Loc) :
    keys (wmAdd wm tk l) = if tk ∈ keys wm then keys wm else keys wm ++ [tk] :=
  keys_dictUpd wm tk _ []

theorem keys_pageAdd_of_mem (tk : Token) (f0 : Name) (ps : List Page) (wm : WordMap)
    (h : tk ∈ keys wm) :
    keys (ps.foldl (fun w p => wmAdd w tk (f0, p)) wm) = keys wm := by
  induction ps generalizing wm with
  | nil => rfl
  | cons p ps ih =>
    rw [List.foldl_cons, ih _ (by rw [keys_wmAdd, if_pos h]; exact h), keys_wmAdd, if_pos h]

theorem keys_pageAdd_fresh (tk : Token) (f0 : Name) (ps : List Page) (wm : WordMap)
    (hne : ps ≠ []) (h : tk ∉ keys wm) :
    keys (ps.foldl (fun w p => wmAdd w tk (f0, p)) wm) = keys wm ++ [tk] := by
  rcases ps with _ | ⟨p, ps⟩
  · exact absurd rfl hne
  · rw [List.foldl_cons,
      keys_pageAdd_of_mem tk f0 ps _ (by rw [keys_wmAdd, if_neg h]; simp),
      keys_wmAdd, if_neg h]

theorem keys_entryFold_of_mem (tk : Token) (fps : List (Name × List Page)) (wm : WordMap)
    (h : tk ∈ keys wm) :
    keys (fps.foldl (fun w fp => fp.2.foldl (fun w2 p => wmAdd w2 tk (fp.1, p)) w) wm) =
      keys wm := by
  induction fps generalizing wm with
  | nil => rfl
  | cons a fps ih =>
    rw [List.foldl_cons, ih _ (by rw [keys_pageAdd_of_mem _ _ _ _ h]; exact h),
      keys_pageAdd_of_mem _ _ _ _ h]

theorem keys_entryFold_fresh (tk : Token) (fps : List (Name × List Page)) (wm : WordMap)
    (hne : fps ≠ []) (hps : ∀ fp ∈ fps, fp.2 ≠ []) (h : tk ∉ keys wm) :
    keys (fps.foldl (fun w fp => fp.2.foldl (fun w2 p => wmAdd w2 tk (fp.1, p)) w) wm) =
      keys wm ++ [tk] := by
  rcases fps with _ | ⟨a, fps⟩
  · exact absurd rfl hne
  · rw [List.foldl_cons,
      keys_entryFold_of_mem tk fps _
        (by rw [keys_pageAdd_fresh tk a.1 a.2 wm (hps a (List.mem_cons_self a fps)) h]; simp),
      keys_pageAdd_fresh tk a.1 a.2 wm (hps a (List.mem_cons_self a fps)) h]

theorem keys_load_eq (j : IndexJson) (hn : (keys j).Nodup)
    (hwf : ∀ e ∈ j, e.2 ≠ [] ∧ ∀ fp ∈ e.2, fp.2 ≠ []) :
    keys (load_existing_word_map_json j) = keys j := by
  unfold load_existing_word_map_json
  have aux : ∀ (es : IndexJson) (wm : WordMap),
      (keys es).Nodup → (∀ e ∈ es, e.2 ≠ [] ∧ ∀ fp ∈ e.2, fp.2 ≠ []) →
      (∀ k ∈ keys es, k ∉ keys wm) →
      keys (es.foldl
        (fun w e => e.2.foldl (fun w1 fp => fp.2.foldl (fun w2 p => wmAdd w2 e.1 (fp.1, p)) w1) w)
        wm) = keys wm ++ keys es := by
    intro es
    induction es with
    | nil => intro wm _ _ _; simp [keys]
    | cons a es ih =>
      intro wm hnd hes hdisj
      have hnd' : a.1 ∉ keys es ∧ (keys es).Nodup := by
        simpa [keys, List.nodup_cons] using hnd
      have hfirst :
          keys (a.2.foldl (fun w1 fp => fp.2.foldl (fun w2 p => wmAdd w2 a.1 (fp.1, p)) w1) wm) =
            keys wm ++ [a.1] :=
        keys_entryFold_fresh a.1 a.2 wm (hes a (List.mem_cons_self a es)).1
          (hes a (List.mem_cons_self a es)).2 (hdisj a.1 (by simp [keys]))
      rw [List.foldl_cons, ih _ hnd'.2 (fun e he => hes e (List.mem_cons_of_mem a he)) ?_,
        hfirst, List.append_assoc]
      · rfl
      · intro k hk
        rw [hfirst]
        simp only [List.mem_append, List.mem_singleton]
        rintro (h | rfl)
        · exact hdisj k (List.mem_cons_of_mem a.1 hk) h
        · exact hnd'.1 hk
  rw [aux j [] hn hwf (by simp [keys])]
  rfl

/-! ### Shape preservation through the in-memory folds -/

theorem entries_ne_nil_wmAdd {wm : WordMap} (h : ∀ e ∈ wm, e.2 ≠ []) (tk : Token) (l : Loc) :
    ∀ e ∈ wmAdd wm tk l, e.2 ≠ [] := by
  intro e he
  rcases mem_dictUpd he with hm | ⟨v, rfl, _⟩
  · exact h e hm
  · show setInsert v l ≠ []
    exact setInsert_ne_nil v l

theorem entries_ne_nil_foldl_wmAdd {γ : Type} (xs : List γ) (tk : γ → Token) (g : γ → Loc)
    {wm : WordMap} (h : ∀ e ∈ wm, e.2 ≠ []) :
    ∀ e ∈ xs.foldl (fun w x => wmAdd w (tk x) (g x)) wm, e.2 ≠ [] := by
  induction xs generalizing wm with
  | nil => exact h
  | cons a xs ih => exact ih (entries_ne_nil_wmAdd h (tk a) (g a))

theorem entries_ne_nil_load (j : IndexJson) :
    ∀ e ∈ load_existing_word_map_json j, e.2 ≠ [] := by
  unfold load_existing_word_map_json
  have aux : ∀ (es : IndexJson) (wm : WordMap), (∀ e ∈ wm, e.2 ≠ []) →
      ∀ e ∈ es.foldl
        (fun w e => e.2.foldl (fun w1 fp => fp.2.foldl (fun w2 p => wmAdd w2 e.1 (fp.1, p)) w1) w)
        wm, e.2 ≠ [] := by
    intro es
    induction es with
    | nil => exact fun wm h => h
    | cons a es ih =>
      intro wm h
      apply ih
      have aux2 : ∀ (fps : List (Name × List Page)) (w : WordMap), (∀ e ∈ w, e.2 ≠ []) →
          ∀ e ∈ fps.foldl (fun w1 fp => fp.2.foldl (fun w2 p => wmAdd w2 a.1 (fp.1, p)) w1) w,
            e.2 ≠ [] := by
        intro fps
        induction fps with
        | nil => exact fun w hw => hw
        | cons b fps ih2 =>
          intro w hw
          exact ih2 _ (entries_ne_nil_foldl_wmAdd b.2 (fun _ => a.1) (fun p => (b.1, p)) hw)
      exact aux2 a.2 wm h
  exact aux j [] (fun e he => absurd he (List.not_mem_nil e))

theorem nodup_keys_foldl_wmAdd {γ : Type} (xs : List γ) (tk : γ → Token) (g : γ → Loc)
    {wm : WordMap} (h : (keys wm).Nodup) :
    (keys (xs.foldl (fun w x => wmAdd w (tk x) (g x)) wm)).Nodup := by
  induction xs generalizing wm with
  | nil => exact h
  | cons a xs ih => exact ih (nodup_keys_dictUpd _ _ _ h)

theorem nodup_keys_load (j : IndexJson) : (keys (load_existing_word_map_json j)).Nodup := by
  unfold load_existing_word_map_json
  have aux : ∀ (es : IndexJson) (wm : WordMap), (keys wm).Nodup →
      (keys (es.foldl
        (fun w e => e.2.foldl (fun w1 fp => fp.2.foldl (fun w2 p => wmAdd w2 e.1 (fp.1, p)) w1) w)
        wm)).Nodup := by
    intro es
    induction es with
    | nil => exact fun wm h => h
    | cons a es ih =>
      intro wm h
      apply ih
      have aux2 : ∀ (fps : List (Name × List Page)) (w : WordMap), (keys w).Nodup →
          (keys (fps.foldl (fun w1 fp => fp.2.foldl (fun w2 p => wmAdd w2 a.1 (fp.1, p)) w1) w)).Nodup := by
        intro fps
        induction fps with
        | nil => exact fun w hw => hw
        | cons b fps ih2 =>
          intro w hw
          exact ih2 _ (nodup_keys_foldl_wmAdd b.2 (fun _ => a.1) (fun p => (b.1, p)) hw)
      exact aux2 a.2 wm h
  exact aux j [] (by simp [keys])

theorem mem_keys_applyAdditions {wm nd : WordMap} {k : Token} :
    k ∈ keys (applyAdditions wm nd) ↔ k ∈ keys wm ∨ k ∈ keys nd := by
  induction nd generalizing wm with
  | nil => simp [applyAdditions, keys]
  | cons a nd ih =>
    show k ∈ keys (applyAdditions (dictUpd wm a.1 (fun s => setUnion s a.2) []) nd) ↔ _
    rw [ih, mem_keys_dictUpd]
    show _ ↔ k ∈ keys wm ∨ k ∈ a.1 :: keys nd
    simp only [List.mem_cons]
    tauto

theorem nodup_keys_applyAdditions {wm : WordMap} (nd : WordMap) (h : (keys wm).Nodup) :
    (keys (applyAdditions wm nd)).Nodup := by
  induction nd generalizing wm with
  | nil => exact h
  | cons a nd ih => exact ih (nodup_keys_dictUpd _ _ _ h)

theorem nodup_keys_merge (maps : List WordMap) : (keys (merge_token_maps maps)).Nodup := by
  rw [merge_eq_foldl]
  have aux : ∀ (ms : List WordMap) (wm : WordMap), (keys wm).Nodup →
      (keys (ms.foldl applyAdditions wm)).Nodup := by
    intro ms
    induction ms with
    | nil => exact fun wm h => h
    | cons a ms ih => exact fun wm h => ih _ (nodup_keys_applyAdditions a h)
  exact aux maps [] (by simp [keys])

theorem dictUpd_union_eq_self {d : WordMap} {k : Token} {v : List Loc} {ls : List Loc}
    (hn : (keys d).Nodup) (hmem : (k, v) ∈ d) (hsub : ∀ x ∈ ls, x ∈ v) :
    dictUpd d k (fun s => setUnion s ls) [] = d := by
  unfold dictUpd
  rw [if_pos (mem_keys.mpr ⟨(k, v), hmem, rfl⟩)]
  have hid : ∀ e ∈ d, (if e.1 = k then (e.1, setUnion e.2 ls) else e) = e := by
    rintro ⟨ek, ev⟩ he
    by_cases hek : ek = k
    · subst hek
      have he2 : ((ek, ev) : Token × List Loc) = (ek, v) :=
        eq_of_mem_nodup_keys hn he hmem rfl
      have hv : ev = v := by
        simpa using congrArg Prod.snd he2
      subst hv
      simp [setUnion_eq_self hsub]
    · simp [hek]
  calc d.map (fun e => if e.1 = k then (e.1, setUnion e.2 ls) else e)
      = d.map id := List.map_congr_left (fun e he => hid e he)
    _ = d := List.map_id d

theorem wmHas_find_nodup {wm : WordMap} {t : Token} {loc : Loc} {v : List Loc}
    (hn : (keys wm).Nodup) (hfind : dictFind wm t = some v) (h : wmHas wm t loc) :
    loc ∈ v := by
  rcases h with ⟨e, he, het, hloc⟩
  have he2 : e = (t, v) := eq_of_mem_nodup_keys hn he (dictFind_mem hfind) het
  rw [he2] at hloc
  exact hloc

theorem applyAdditions_stable {w : WordMap} {nd : WordMap}
    (hn : (keys w).Nodup)
    (h : ∀ e ∈ nd, ∃ v, (e.1, v) ∈ w ∧ ∀ x ∈ e.2, x ∈ v) :
    applyAdditions w nd = w := by
  induction nd with
  | nil => rfl
  | cons a nd ih =>
    show applyAdditions (dictUpd w a.1 (fun s => setUnion s a.2) []) nd = w
    rcases h a (List.mem_cons_self a nd) with ⟨v, hv, hsub⟩
    rw [dictUpd_union_eq_self hn hv hsub]
    exact ih (fun e he => h e (List.mem_cons_of_mem a he))

/-! ### Destructuring the orchestrated run -/

theorem pdf_check_add_snd (new_pdfs : List Name) (wm : WordMap) (cache : Cache)
    (folder : Folder) :
    (pdf_check_add new_pdfs wm cache folder).2 =
      new_pdfs.foldl (fun c p => dictSet c p (mtimeOf folder p)) cache := by
  unfold pdf_check_add
  split
  · next h => rw [h]; rfl
  · rfl

theorem pdf_check_add_fst (new_pdfs : List Name) (wm : WordMap) (cache : Cache)
    (folder : Folder) (h : new_pdfs ≠ []) :
    (pdf_check_add new_pdfs wm cache folder).1 =
      applyAdditions wm (merge_token_maps
        (new_pdfs.map (fun p => extract_tokens_from_pdf p (contentOf folder p)))) := by
  unfold pdf_check_add
  rw [if_neg h]

theorem wmHas_pdf_check_add_fst (new_pdfs : List Name) (wm : WordMap) (cache : Cache)
    (folder : Folder) (t : Token) (loc : Loc) :
    wmHas (pdf_check_add new_pdfs wm cache folder).1 t loc ↔
      wmHas wm t loc ∨ ∃ p ∈ new_pdfs, loc.1 = p ∧ occursIn (contentOf folder p) t loc.2 := by
  by_cases h : new_pdfs = []
  · subst h
    unfold pdf_check_add
    simp
  · rw [pdf_check_add_fst _ _ _ _ h, wmHas_applyAdditions, wmHas_merge]
    constructor
    · rintro (h1 | ⟨tm, htm, h2⟩)
      · exact Or.inl h1
      · rcases List.mem_map.mp htm with ⟨p, hp, rfl⟩
        rw [wmHas_extract] at h2
        exact Or.inr ⟨p, hp, h2.1, h2.2⟩
    · rintro (h1 | ⟨p, hp, h2, h3⟩)
      · exact Or.inl h1
      · exact Or.inr ⟨_, List.mem_map.mpr ⟨p, hp, rfl⟩, (wmHas_extract _ _ _ _).mpr ⟨h2, h3⟩⟩

theorem except_bind_ok {ε α β : Type} {x : Except ε α} {f : α → Except ε β} {b : β}
    (h : (x >>= f) = .ok b) : ∃ a, x = .ok a ∧ f a = .ok b := by
  cases x with
  | error e => cases h
  | ok a => exact ⟨a, rfl, h⟩

theorem computeRun_cold {folder : Folder} {fs : FS} (h : fs.indexFile = none) :
    computeRun folder fs = .ok (coldStart folder (fs.cacheFile.getD [])) := by
  unfold computeRun
  rw [h]

theorem computeRun_incr {folder : Folder} {fs : FS} {j : IndexJson}
    (h : fs.indexFile = some j) :
    computeRun folder fs =
      (dispatchOnCount folder (load_existing_word_map_json j) (fs.cacheFile.getD [])) >>=
        (fun wc1 => rescanModified folder wc1) := by
  unfold computeRun
  rw [h]

theorem rescanModified_ok {folder : Folder} {wc1 wc : WordMap × Cache}
    (h : rescanModified folder wc1 = .ok wc) :
    (modifiedScan folder wc1.2 = [] ∧ wc = wc1) ∨
      (modifiedScan folder wc1.2 ≠ [] ∧
        ∃ wc2, pdf_check_deleted (modifiedScan folder wc1.2) wc1.1 wc1.2 = .ok wc2 ∧
          wc = pdf_check_add (modifiedScan folder wc1.2) wc2.1 wc2.2 folder) := by
  unfold rescanModified at h
  split at h
  · next hmd => exact Or.inl ⟨hmd, by cases h; rfl⟩
  · next hmd =>
    rcases except_bind_ok h with ⟨wc2, h2, h3⟩
    exact Or.inr ⟨hmd, wc2, h2, by cases h3; rfl⟩

theorem dispatchOnCount_ok {folder : Folder} {wm0 : WordMap} {cache0 : Cache}
    {wc : WordMap × Cache} (h : dispatchOnCount folder wm0 cache0 = .ok wc) :
    (0 < (listPdfNames folder).length - ((keys cache0).length : Int) ∧
      wc = pdf_check_add ((listPdfNames folder).filter (fun p => decide (p ∉ keys cache0)))
        wm0 cache0 folder) ∨
    ((listPdfNames folder).length - ((keys cache0).length : Int) < 0 ∧
      pdf_check_deleted ((keys cache0).filter (fun p => decide (p ∉ listPdfNames folder)))
        wm0 cache0 = .ok wc) ∨
    ((listPdfNames folder).length - ((keys cache0).length : Int) = 0 ∧ wc = (wm0, cache0)) := by
  unfold dispatchOnCount at h
  split at h
  · next hm => exact Or.inl ⟨hm, by cases h; rfl⟩
  · split at h
    · next hm => exact Or.inr (Or.inl ⟨hm, h⟩)
    · next hm1 hm2 =>
      refine Or.inr (Or.inr ⟨by omega, by cases h; rfl⟩)

theorem mem_modifiedScan {folder : Folder} {cache : Cache} {n : Name} :
    n ∈ modifiedScan folder cache ↔
      n ∈ listPdfNames folder ∧ dictFind cache n ≠ some (mtimeOf folder n) := by
  simp [modifiedScan, List.mem_filter]

/-- Every current PDF's on-disk mtime is recorded in the final cache of a
successful run (lines 136-138, 102-104 and the rescan at 148-157). -/
theorem computeRun_cache_mtimes {folder : Folder} {fs : FS} {wc : WordMap × Cache}
    (h : computeRun folder fs = .ok wc) :
    ∀ n ∈ listPdfNames folder, dictFind wc.2 n = some (mtimeOf folder n) := by
  intro n hn
  rcases hidx : fs.indexFile with _ | j
  · rw [computeRun_cold hidx] at h
    cases h
    show dictFind (coldStart folder (fs.cacheFile.getD [])).2 n = _
    unfold coldStart
    rw [dictFind_foldl_dictSet, if_pos hn]
  · rw [computeRun_incr hidx] at h
    rcases except_bind_ok h with ⟨wc1, _, h2⟩
    rcases rescanModified_ok h2 with ⟨hmd, rfl⟩ | ⟨hmd, wc2, hdel, rfl⟩
    · by_contra hne
      have hmem : n ∈ modifiedScan folder wc.2 := mem_modifiedScan.mpr ⟨hn, hne⟩
      rw [hmd] at hmem
      cases hmem
    · rw [pdf_check_add_snd, dictFind_foldl_dictSet]
      by_cases hmem : n ∈ modifiedScan folder wc1.2
      · rw [if_pos hmem]
      · rw [if_neg hmem]
        rcases pdf_check_deleted_ok hdel with ⟨hnil, _⟩ | ⟨_, rfl⟩
        · exact absurd hnil hmd
        · show dictFind (wc1.2.filter (fun e => decide (e.1 ∉ modifiedScan folder wc1.2))) n = _
          rw [dictFind_filter_not, if_neg hmem]
          by_contra hne
          exact hmem (mem_modifiedScan.mpr ⟨hn, hne⟩)

/-- A successful run keeps the cache's key list duplicate-free. -/
theorem computeRun_cache_nodup {folder : Folder} {fs : FS} {wc : WordMap × Cache}
    (h : computeRun folder fs = .ok wc) (h0 : (keys (fs.cacheFile.getD [])).Nodup) :
    (keys wc.2).Nodup := by
  rcases hidx : fs.indexFile with _ | j
  · rw [computeRun_cold hidx] at h
    cases h
    exact nodup_keys_foldl_dictSet _ _ _ h0
  · rw [computeRun_incr hidx] at h
    rcases except_bind_ok h with ⟨wc1, h1, h2⟩
    have hwc1 : (keys wc1.2).Nodup := by
      rcases dispatchOnCount_ok h1 with ⟨_, rfl⟩ | ⟨_, hdel⟩ | ⟨_, rfl⟩
      · rw [pdf_check_add_snd]
        exact nodup_keys_foldl_dictSet _ _ _ h0
      · rcases pdf_check_deleted_ok hdel with ⟨_, rfl⟩ | ⟨_, rfl⟩
        · exact h0
        · exact nodup_keys_filter _ h0
      · exact h0
    rcases rescanModified_ok h2 with ⟨_, rfl⟩ | ⟨hmd, wc2, hdel, rfl⟩
    · exact hwc1
    · rw [pdf_check_add_snd]
      apply nodup_keys_foldl_dictSet
      rcases pdf_check_deleted_ok hdel with ⟨hnil, _⟩ | ⟨_, rfl⟩
      · exact absurd hnil hmd
      · exact nodup_keys_filter _ hwc1

theorem docsOK_pdf_check_add {new : List Name} {wm : WordMap} {cache : Cache}
    {folder : Folder} (h : ∀ t loc, wmHas wm t loc → loc.1 ∈ keys cache) :
    ∀ t loc, wmHas (pdf_check_add new wm cache folder).1 t loc →
      loc.1 ∈ keys (pdf_check_add new wm cache folder).2 := by
  intro t loc hw
  rw [pdf_check_add_snd, mem_keys_foldl_dictSet]
  rcases (wmHas_pdf_check_add_fst new wm cache folder t loc).mp hw with h1 | ⟨p, hp, hp1, _⟩
  · exact Or.inl (h t loc h1)
  · exact Or.inr (hp1 ▸ hp)

theorem docsOK_prune {docs : List Name} {wm : WordMap} {cache : Cache}
    (h : ∀ t loc, wmHas wm t loc → loc.1 ∈ keys cache) :
    ∀ t loc, wmHas (removeLocsOfDocs docs wm) t loc →
      loc.1 ∈ keys (cache.filter (fun e => decide (e.1 ∉ docs))) := by
  intro t loc hw
  rcases (wmHas_removeLocs docs wm t loc).mp hw with ⟨h1, h2⟩
  exact mem_keys_filter_not.mpr ⟨h t loc h1, h2⟩

/-- A successful run never leaves an occurrence whose document is not a
key of the final cache, provided the loaded checkpoint already satisfied
this. -/
theorem computeRun_docsOK {folder : Folder} {fs : FS} {wc : WordMap × Cache}
    (hinv : ∀ j, fs.indexFile = some j →
      ∀ e ∈ j, ∀ fp ∈ e.2, fp.1 ∈ keys (fs.cacheFile.getD []))
    (h : computeRun folder fs = .ok wc) :
    ∀ t loc, wmHas wc.1 t loc → loc.1 ∈ keys wc.2 := by
  rcases hidx : fs.indexFile with _ | j
  · rw [computeRun_cold hidx] at h
    cases h
    intro t loc hw
    unfold coldStart at hw ⊢
    rcases (wmHas_merge _ t loc).mp hw with ⟨tm, htm, h2⟩
    rcases List.mem_map.mp htm with ⟨p, hp, rfl⟩
    rcases (wmHas_extract _ _ _ _).mp h2 with ⟨hp1, _⟩
    show loc.1 ∈ keys ((listPdfNames folder).foldl _ _)
    rw [mem_keys_foldl_dictSet]
    exact Or.inr (hp1 ▸ hp)
  · rw [computeRun_incr hidx] at h
    rcases except_bind_ok h with ⟨wc1, h1, h2⟩
    have hwm0 : ∀ t loc, wmHas (load_existing_word_map_json j) t loc →
        loc.1 ∈ keys (fs.cacheFile.getD []) := by
      intro t loc hw
      rcases (wmHas_load j t loc).mp hw with ⟨e, he, _, fp, hfp, hfp1, _⟩
      exact hfp1 ▸ hinv j hidx e he fp hfp
    have hwc1 : ∀ t loc, wmHas wc1.1 t loc → loc.1 ∈ keys wc1.2 := by
      rcases dispatchOnCount_ok h1 with ⟨_, rfl⟩ | ⟨_, hdel⟩ | ⟨_, rfl⟩
      · exact docsOK_pdf_check_add hwm0
      · rcases pdf_check_deleted_ok hdel with ⟨_, rfl⟩ | ⟨_, rfl⟩
        · exact hwm0
        · exact docsOK_prune hwm0
      · exact hwm0
    rcases rescanModified_ok h2 with ⟨_, rfl⟩ | ⟨hmd, wc2, hdel, rfl⟩
    · exact hwc1
    · rcases pdf_check_deleted_ok hdel with ⟨hnil, _⟩ | ⟨_, rfl⟩
      · exact absurd hnil hmd
      · exact docsOK_pdf_check_add (docsOK_prune hwc1)

theorem build_ok {folder : Folder} {fs : FS} {sigma : List Loc → List Loc}
    {j : IndexJson} {c : Cache}
    (h : build_word_map_with_cache folder fs sigma = .ok (j, c)) :
    ∃ wc, computeRun folder fs = .ok wc ∧ j = save_word_map_json sigma wc.1 ∧ c = wc.2 := by
  unfold build_word_map_with_cache at h
  cases hcr : computeRun folder fs with
  | error e => rw [hcr] at h; cases h
  | ok wc =>
    rw [hcr] at h
    have h2 : (save_word_map_json sigma wc.1, wc.2) = (j, c) := by
      simpa [Except.map] using h
    exact ⟨wc, rfl, congrArg Prod.fst h2.symm, congrArg Prod.snd h2.symm⟩

/-! ### Remaining helpers for the claims -/

theorem mem_keys_merge {maps : List WordMap} {k : Token} :
    k ∈ keys (merge_token_maps maps) ↔ ∃ tm ∈ maps, k ∈ keys tm := by
  rw [merge_eq_foldl]
  have aux : ∀ (ms : List WordMap) (wm : WordMap),
      k ∈ keys (ms.foldl applyAdditions wm) ↔ k ∈ keys wm ∨ ∃ tm ∈ ms, k ∈ keys tm := by
    intro ms
    induction ms with
    | nil => simp
    | cons a ms ih =>
      intro wm
      rw [List.foldl_cons, ih, mem_keys_applyAdditions]
      simp only [List.mem_cons, exists_eq_or_imp]
      tauto
  rw [aux]
  simp [keys]

theorem applyAdditions_idem (wm nd : WordMap) (hn : (keys wm).Nodup) :
    applyAdditions (applyAdditions wm nd) nd = applyAdditions wm nd := by
  apply applyAdditions_stable (nodup_keys_applyAdditions nd hn)
  intro e he
  have hkey : e.1 ∈ keys (applyAdditions wm nd) :=
    mem_keys_applyAdditions.mpr (Or.inr (mem_keys.mpr ⟨e, he, rfl⟩))
  rcases hfv : dictFind (applyAdditions wm nd) e.1 with _ | v
  · exact absurd (dictFind_eq_none.mp hfv) (not_not_intro hkey)
  · refine ⟨v, dictFind_mem hfv, ?_⟩
    intro x hx
    exact wmHas_find_nodup (nodup_keys_applyAdditions nd hn) hfv
      ((wmHas_applyAdditions wm nd e.1 x).mpr (Or.inr ⟨e, he, rfl, hx⟩))

theorem findPdf_eq_of_mem {folder : Folder} {pf : PdfFile}
    (hn : (listPdfNames folder).Nodup) (h : pf ∈ folder) :
    findPdf folder pf.name = some pf := by
  induction folder with
  | nil => cases h
  | cons a fl ih =>
    have hn' : a.name ∉ listPdfNames fl ∧ (listPdfNames fl).Nodup := by
      simpa [listPdfNames, List.nodup_cons] using hn
    rcases List.mem_cons.mp h with rfl | h
    · unfold findPdf
      rw [List.find?_cons_of_pos _ (by simp)]
    · have hne : a.name ≠ pf.name := by
        intro he
        exact hn'.1 (he ▸ List.mem_map.mpr ⟨pf, h, rfl⟩)
      unfold findPdf
      rw [List.find?_cons_of_neg _ (by simpa using hne)]
      exact ih hn'.2 h

theorem contentOf_eq {folder : Folder} {pf : PdfFile}
    (hn : (listPdfNames folder).Nodup) (h : pf ∈ folder) :
    contentOf folder pf.name = pf.content := by
  unfold contentOf
  rw [show findPdf folder pf.name = some pf from findPdf_eq_of_mem hn h]
  rfl

theorem mtimeOf_eq {folder : Folder} {pf : PdfFile}
    (hn : (listPdfNames folder).Nodup) (h : pf ∈ folder) :
    mtimeOf folder pf.name = pf.mtime := by
  unfold mtimeOf
  rw [show findPdf folder pf.name = some pf from findPdf_eq_of_mem hn h]
  rfl

theorem sigma_ne_nil {sigma : List Loc → List Loc}
    (hsig : ∀ (l : List Loc) (x : Loc), x ∈ sigma l ↔ x ∈ l) {l : List Loc} (h : l ≠ []) :
    sigma l ≠ [] := by
  rcases List.exists_mem_of_ne_nil l h with ⟨x, hx⟩
  intro h0
  have hmem := (hsig l x).mpr hx
  rw [h0] at hmem
  cases hmem

theorem revOrder_mem (l : List Loc) (x : Loc) : x ∈ revOrder l ↔ x ∈ l := by
  simp [revOrder]

theorem modifiedScan_eq_nil {folder : Folder} {cache : Cache}
    (h : ∀ n ∈ listPdfNames folder, dictFind cache n = some (mtimeOf folder n)) :
    modifiedScan folder cache = [] := by
  unfold modifiedScan
  rw [List.filter_eq_nil_iff]
  intro a ha
  simp only [decide_eq_true_eq, not_not]
  exact h a ha

theorem rescanModified_of_none {folder : Folder} {wc1 : WordMap × Cache}
    (h : modifiedScan folder wc1.2 = []) : rescanModified folder wc1 = .ok wc1 := by
  unfold rescanModified
  rw [if_pos h]

theorem dispatchOnCount_zero {folder : Folder} {wm0 : WordMap} {cache0 : Cache}
    (hlen : (listPdfNames folder).length = (keys cache0).length) :
    dispatchOnCount folder wm0 cache0 = .ok (wm0, cache0) := by
  unfold dispatchOnCount
  rw [if_neg (by omega), if_neg (by omega)]

theorem run_build_ok {folder : Folder} {fs : FS} {sigma : List Loc → List Loc} {fs' : FS}
    (h : run_build folder fs sigma = .ok fs') :
    ∃ wc, computeRun folder fs = .ok wc ∧
      fs' = ⟨some (save_word_map_json sigma wc.1), some wc.2⟩ := by
  unfold run_build build_word_map_with_cache at h
  cases hcr : computeRun folder fs with
  | error e => rw [hcr] at h; cases h
  | ok wc =>
    rw [hcr] at h
    exact ⟨wc, rfl, by simpa [Except.map] using h.symm⟩

theorem run_build_of_computeRun {folder : Folder} {fs : FS} {sigma : List Loc → List Loc}
    {wc : WordMap × Cache} (h : computeRun folder fs = .ok wc) :
    run_build folder fs sigma = .ok ⟨some (save_word_map_json sigma wc.1), some wc.2⟩ := by
  unfold run_build build_word_map_with_cache
  rw [h]
  rfl

theorem mem_keys_of_dictFind_eq_some [DecidableEq α] {d : List (α × β)} {k : α} {v : β}
    (h : dictFind d k = some v) : k ∈ keys d := by
  by_contra hk
  rw [dictFind_eq_none.mpr hk] at h
  cases h

theorem length_lt_of_ssub {l1 l2 : List Name} (h1 : l1.Nodup) (h2 : l2.Nodup)
    (hsub : ∀ x ∈ l1, x ∈ l2) (hne : ∃ x ∈ l2, x ∉ l1) : l1.length < l2.length := by
  have hsubF : l1.toFinset ⊆ l2.toFinset := fun x hx =>
    List.mem_toFinset.mpr (hsub x (List.mem_toFinset.mp hx))
  rcases hne with ⟨x, hx2, hx1⟩
  have hltF : l1.toFinset.card < l2.toFinset.card := by
    apply Finset.card_lt_card
    rw [Finset.ssubset_iff_of_subset hsubF]
    exact ⟨x, List.mem_toFinset.mpr hx2, fun hx => hx1 (List.mem_toFinset.mp hx)⟩
  rwa [List.toFinset_card_of_nodup h1, List.toFinset_card_of_nodup h2] at hltF

theorem dispatchOnCount_neg {folder : Folder} {wm0 : WordMap} {cache0 : Cache}
    (hlt : (listPdfNames folder).length < (keys cache0).length) :
    dispatchOnCount folder wm0 cache0 =
      pdf_check_deleted ((keys cache0).filter (fun p => decide (p ∉ listPdfNames folder)))
        wm0 cache0 := by
  unfold dispatchOnCount
  rw [if_neg (by omega), if_pos (by omega)]

theorem pdf_check_deleted_ok_of_subset {deleted : List Name} {wm : WordMap} {cache : Cache}
    (hne : deleted ≠ []) (hsub : ∀ d ∈ deleted, d ∈ keys cache) :
    pdf_check_deleted deleted wm cache =
      .ok (removeLocsOfDocs deleted wm, cache.filter (fun e => decide (e.1 ∉ deleted))) := by
  unfold pdf_check_deleted
  rw [if_neg hne]
  rcases hfind : deleted.find? (fun d => decide (d ∉ keys cache)) with _ | d
  · rfl
  · have hpred := List.find?_some hfind
    have hdm := List.mem_of_find?_eq_some hfind
    exact absurd (hsub d hdm) (by simpa using hpred)

/-! ### The claims -/

/-- Claim C1 (code_bug): change detection does not partition the current
and manifest document sets; it dispatches on the COUNT difference m
(lines 141-146).  With one document added and one removed in the same run
(m = 0), neither branch runs; the added document is then classified
modified by the rescan and del cache[pdf] raises KeyError, aborting the
run, instead of purging a.pdf and indexing b.pdf.  With two added and one
removed (m = 1 > 0), only additions are handled and the run persists a
checkpoint that still contains the removed document a.pdf in both the
index and the manifest, contradicting removed = manifestDocs minus
currentDocs being purged in that same run. -/
theorem c1_mixed_changes_not_handled :
    run_build folderMixed fsMixed idOrder = .error (.keyError "b.pdf") ∧
    run_build folderSkew fsMixed idOrder =
      .ok ⟨some [("x", [("a.pdf", [1])]), ("z", [("b.pdf", [1])])],
          some [("a.pdf", 3), ("b.pdf", 5), ("c.pdf", 6)]⟩ := by
  exact ⟨by decide, by decide⟩

/-- Claim C8 (confirmed): for every in-memory word map and every set
enumeration order, every page sequence in the saved index file is
strictly ascending, hence made of distinct page numbers sorted in
ascending order. -/
theorem c8_saved_pages_sorted_distinct (sigma : List Loc → List Loc) (wm : WordMap) :
    ∀ e ∈ save_word_map_json sigma wm, ∀ fp ∈ e.2, List.Pairwise (· < ·) fp.2 := by
  intro e he fp hfp
  exact (((save_canonical sigma wm).2 e he).2.2 fp hfp).2

theorem c8_saved_pages_sorted_distinct_witness :
    List.Pairwise (· < ·) ([1, 2] : List Page) :=
  c8_saved_pages_sorted_distinct idOrder [("x", [("a.pdf", 2), ("a.pdf", 1)])]
    ("x", [("a.pdf", [1, 2])]) (by decide) ("a.pdf", [1, 2]) (by decide)

/-- Claim C9 (confirmed): merge_token_maps is order-independent in the
sense of Python dict equality: permuting the list of partial maps changes
neither the token key set nor any token's occurrence set, so the
nondeterministic as_completed collection order cannot change the merged
index as a mapping. -/
theorem c9_merge_order_independent (maps1 maps2 : List WordMap) (h : maps1.Perm maps2) :
    (∀ k, k ∈ keys (merge_token_maps maps1) ↔ k ∈ keys (merge_token_maps maps2)) ∧
    (∀ t loc, wmHas (merge_token_maps maps1) t loc ↔ wmHas (merge_token_maps maps2) t loc) := by
  constructor
  · intro k
    rw [mem_keys_merge, mem_keys_merge]
    constructor
    · rintro ⟨tm, htm, hk⟩
      exact ⟨tm, h.mem_iff.mp htm, hk⟩
    · rintro ⟨tm, htm, hk⟩
      exact ⟨tm, h.mem_iff.mpr htm, hk⟩
  · intro t loc
    rw [wmHas_merge, wmHas_merge]
    constructor
    · rintro ⟨tm, htm, hk⟩
      exact ⟨tm, h.mem_iff.mp htm, hk⟩
    · rintro ⟨tm, htm, hk⟩
      exact ⟨tm, h.mem_iff.mpr htm, hk⟩

theorem c9_merge_order_independent_witness :
    (∀ k, k ∈ keys (merge_token_maps [[("x", [("a.pdf", 1)])], []]) ↔
      k ∈ keys (merge_token_maps [[], [("x", [("a.pdf", 1)])]])) ∧
    (∀ t loc, wmHas (merge_token_maps [[("x", [("a.pdf", 1)])], []]) t loc ↔
      wmHas (merge_token_maps [[], [("x", [("a.pdf", 1)])]]) t loc) :=
  c9_merge_order_independent [[("x", [("a.pdf", 1)])], []] [[], [("x", [("a.pdf", 1)])]]
    (by decide)

/-- Claim C7 (confirmed): the addition fold of pdf_check_add has union
semantics: re-adding an occurrence already present leaves the word map
unchanged, and applying the same additions twice equals applying them
once. -/
theorem c7_apply_additions_idempotent (wm nd : WordMap) (t : Token) (loc : Loc)
    (hn : (keys wm).Nodup) :
    (wmHas wm t loc → applyAdditions wm [(t, [loc])] = wm) ∧
    applyAdditions (applyAdditions wm nd) nd = applyAdditions wm nd := by
  constructor
  · rintro ⟨e, he, het, hloc⟩
    show dictUpd wm t (fun s => setUnion s [loc]) [] = wm
    rcases e with ⟨e1, e2⟩
    subst het
    apply dictUpd_union_eq_self hn he
    intro x hx
    rcases List.mem_singleton.mp hx with rfl
    exact hloc
  · exact applyAdditions_idem wm nd hn

theorem c7_apply_additions_idempotent_witness :
    applyAdditions [("x", [("a.pdf", 1)])] [("x", [("a.pdf", 1)])] = [("x", [("a.pdf", 1)])] ∧
    applyAdditions
        (applyAdditions [("x", [("a.pdf", 1)])] [("x", [("a.pdf", 1), ("b.pdf", 2)])])
        [("x", [("a.pdf", 1), ("b.pdf", 2)])] =
      applyAdditions [("x", [("a.pdf", 1)])] [("x", [("a.pdf", 1), ("b.pdf", 2)])] :=
  ⟨(c7_apply_additions_idempotent [("x", [("a.pdf", 1)])] [("x", [("a.pdf", 1), ("b.pdf", 2)])]
      "x" ("a.pdf", 1) (by decide)).1 (by decide),
   (c7_apply_additions_idempotent [("x", [("a.pdf", 1)])] [("x", [("a.pdf", 1), ("b.pdf", 2)])]
      "x" ("a.pdf", 1) (by decide)).2⟩

/-- Claim C3 (counterexample): extraction of cFail raises after its first
page was processed; the exception is caught, yet the document contributes
the NON-empty occurrence set {(x, page 1)} to the merged batch result,
refuting the claim that a failed document contributes an empty occurrence
set. -/
theorem c3_failed_doc_contributes_nonempty :
    cFail.failAt ≠ none ∧
    extract_tokens_from_pdf "a.pdf" cFail = [("x", [("a.pdf", 1)])] ∧
    wmHas (pdf_check_add ["a.pdf", "b.pdf"] [] [] folderFail).1 "x" ("a.pdf", 1) :=
  ⟨by decide, by decide, by decide⟩

/-- Claim C3 (amended): a document whose extraction fails after k pages
does not abort the batch; it contributes exactly the occurrences of the
pages processed before the failure (empty when the failure precedes any
page), its mtime is still recorded in the manifest by pdf_check_add, and
it is therefore not selected by the modified-document rescan while its
timestamp is unchanged. -/
theorem c3_partial_contribution_cached (name : Name) (pages : List (List Token)) (k : Nat)
    (folder : Folder) (pdfs : List Name) (wm : WordMap) (cache : Cache)
    (hmem : name ∈ pdfs) :
    extract_tokens_from_pdf name ⟨pages, some k⟩
        = extract_tokens_from_pdf name ⟨pages.take k, none⟩ ∧
    dictFind (pdf_check_add pdfs wm cache folder).2 name = some (mtimeOf folder name) ∧
    name ∉ modifiedScan folder (pdf_check_add pdfs wm cache folder).2 := by
  have h2 : dictFind (pdf_check_add pdfs wm cache folder).2 name =
      some (mtimeOf folder name) := by
    rw [pdf_check_add_snd, dictFind_foldl_dictSet, if_pos hmem]
  refine ⟨rfl, h2, ?_⟩
  intro hmod
  exact (mem_modifiedScan.mp hmod).2 h2

theorem c3_partial_contribution_cached_witness :
    extract_tokens_from_pdf "a.pdf" ⟨[["x"], ["y"]], some 1⟩
        = extract_tokens_from_pdf "a.pdf" ⟨[["x"], ["y"]].take 1, none⟩ ∧
    dictFind (pdf_check_add ["a.pdf", "b.pdf"] [] [] folderFail).2 "a.pdf" =
      some (mtimeOf folderFail "a.pdf") ∧
    "a.pdf" ∉ modifiedScan folderFail (pdf_check_add ["a.pdf", "b.pdf"] [] [] folderFail).2 :=
  c3_partial_contribution_cached "a.pdf" [["x"], ["y"]] 1 folderFail ["a.pdf", "b.pdf"]
    [] [] (by decide)

/-- Claim C10 (confirmed): pdf_check_deleted raises KeyError whenever a
non-empty deleted set contains a name absent from the cache, the error
branch is unreachable when every deleted name is cached, and the
modified-document rescan really can pass an uncached name: on the
folderMixed/fsMixed run the added document b.pdf is uncached, selected as
modified, and the run aborts with KeyError b.pdf. -/
theorem c10_delete_uncached_keyerror :
    (∀ (deleted : List Name) (wm : WordMap) (cache : Cache), deleted ≠ [] →
      (∃ d ∈ deleted, d ∉ keys cache) →
      ∃ e, pdf_check_deleted deleted wm cache = .error e) ∧
    (∀ (deleted : List Name) (wm : WordMap) (cache : Cache),
      (∀ d ∈ deleted, d ∈ keys cache) →
      ∃ wc, pdf_check_deleted deleted wm cache = .ok wc) ∧
    ("b.pdf" ∈ modifiedScan folderMixed [("a.pdf", 3)] ∧
     "b.pdf" ∉ keys (fsMixed.cacheFile.getD []) ∧
     run_build folderMixed fsMixed idOrder = .error (.keyError "b.pdf")) := by
  refine ⟨?_, ?_, by decide, by decide, by decide⟩
  · intro deleted wm cache hne hmiss
    rcases @pdf_check_deleted_error deleted wm cache hne hmiss with ⟨d, _, _, heq⟩
    exact ⟨.keyError d, heq⟩
  · intro deleted wm cache hall
    by_cases hd : deleted = []
    · subst hd
      exact ⟨(wm, cache), rfl⟩
    · unfold pdf_check_deleted
      rw [if_neg hd]
      rcases hfind : deleted.find? (fun d => decide (d ∉ keys cache)) with _ | d
      · exact ⟨_, rfl⟩
      · have hpred := List.find?_some hfind
        have hdm := List.mem_of_find?_eq_some hfind
        exact absurd (hall d hdm) (by simpa using hpred)

theorem c10_delete_uncached_keyerror_witness :
    ∃ e, pdf_check_deleted ["z.pdf"] [] [] = .error e :=
  c10_delete_uncached_keyerror.1 ["z.pdf"] [] []
    (by decide) ⟨"z.pdf", by decide, by decide⟩

/-- Claim C4 (counterexample): the two saves at lines 161-162 are not
atomic.  On a cold-start run over folderOne, a Fatal I/O failure of
save_cache striking after save_word_map_json succeeded leaves the index
file updated while the manifest file is untouched: a half-updated
checkpoint, contradicting that a Fatal failure before completion
modifies neither file. -/
theorem c4_half_updated_checkpoint :
    fsAfterFatal folderOne fsEmpty idOrder .afterIndexSave ≠ fsEmpty ∧
    (fsAfterFatal folderOne fsEmpty idOrder .afterIndexSave).indexFile =
      some [("x", [("a.pdf", [1])])] ∧
    (fsAfterFatal folderOne fsEmpty idOrder .afterIndexSave).cacheFile = fsEmpty.cacheFile :=
  ⟨by decide, by decide, by decide⟩

/-- Claim C4 (amended): a Fatal error at any point before the persistence
phase (including the KeyError the run itself can raise) leaves both
checkpoint files exactly as before the run; but the two saves are not
atomic: a Fatal failure between them leaves the index file replaced and
only the manifest unchanged. -/
theorem c4_no_writes_before_persistence (folder : Folder) (fs : FS)
    (sigma : List Loc → List Loc) :
    fsAfterFatal folder fs sigma .beforePersist = fs ∧
    (fsAfterFatal folder fs sigma .afterIndexSave).cacheFile = fs.cacheFile := by
  constructor
  · rfl
  · show (match build_word_map_with_cache folder fs sigma with
      | .error _ => fs
      | .ok jc => ⟨some jc.1, fs.cacheFile⟩ : FS).cacheFile = fs.cacheFile
    cases build_word_map_with_cache folder fs sigma <;> rfl

/-- Claim C6 (confirmed): when word_map.json does not exist, the run
bypasses change detection: it succeeds, records every current document's
mtime in the manifest, and persists exactly the merge of every current
document's extracted occurrence sets (page p of token t is listed under
document f iff some current document named f contains t on page p of its
processed content). -/
theorem c6_cold_start_full_index (folder : Folder) (fs : FS)
    (sigma : List Loc → List Loc) (j : IndexJson) (c : Cache)
    (hsig : ∀ (l : List Loc) (x : Loc), x ∈ sigma l ↔ x ∈ l)
    (hnames : (listPdfNames folder).Nodup)
    (hcold : fs.indexFile = none)
    (hrun : build_word_map_with_cache folder fs sigma = .ok (j, c)) :
    (∀ n ∈ listPdfNames folder, dictFind c n = some (mtimeOf folder n)) ∧
    (∀ t f p, p ∈ pagesOf j t f ↔
      ∃ pf ∈ folder, pf.name = f ∧ occursIn pf.content t p) := by
  rcases build_ok hrun with ⟨wc, hcr, rfl, rfl⟩
  refine ⟨fun n hn => computeRun_cache_mtimes hcr n hn, ?_⟩
  intro t f p
  rw [computeRun_cold hcold] at hcr
  have hwc : wc = coldStart folder (fs.cacheFile.getD []) := by
    cases hcr
    rfl
  subst hwc
  rw [mem_pagesOf_save sigma hsig]
  show wmHas (coldStart folder (fs.cacheFile.getD [])).1 t (f, p) ↔ _
  unfold coldStart
  rw [show (merge_token_maps
      ((listPdfNames folder).map (fun q => extract_tokens_from_pdf q (contentOf folder q))),
      (listPdfNames folder).foldl (fun c2 q => dictSet c2 q (mtimeOf folder q))
        (fs.cacheFile.getD [])).1
    = merge_token_maps
      ((listPdfNames folder).map (fun q => extract_tokens_from_pdf q (contentOf folder q)))
    from rfl, wmHas_merge]
  constructor
  · rintro ⟨tm, htm, hw⟩
    rcases List.mem_map.mp htm with ⟨q, hq, rfl⟩
    rcases (wmHas_extract _ _ _ _).mp hw with ⟨hq1, hocc⟩
    rcases List.mem_map.mp hq with ⟨pf, hpf, rfl⟩
    refine ⟨pf, hpf, hq1.symm, ?_⟩
    rw [contentOf_eq hnames hpf] at hocc
    exact hocc
  · rintro ⟨pf, hpf, rfl, hocc⟩
    refine ⟨extract_tokens_from_pdf pf.name (contentOf folder pf.name),
      List.mem_map.mpr ⟨pf.name, List.mem_map.mpr ⟨pf, hpf, rfl⟩, rfl⟩, ?_⟩
    rw [wmHas_extract]
    rw [contentOf_eq hnames hpf]
    exact ⟨rfl, hocc⟩

theorem c6_cold_start_full_index_witness :
    (∀ n ∈ listPdfNames folderOne,
      dictFind [("a.pdf", (1 : Time))] n = some (mtimeOf folderOne n)) ∧
    (∀ t f p, p ∈ pagesOf [("x", [("a.pdf", [1])])] t f ↔
      ∃ pf ∈ folderOne, pf.name = f ∧ occursIn pf.content t p) :=
  c6_cold_start_full_index folderOne fsEmpty idOrder [("x", [("a.pdf", [1])])]
    [("a.pdf", 1)] (fun l x => Iff.rfl) (by decide) rfl (by decide)

/-- Claim C2 (confirmed): after every run that completes and persists, the
persisted index maps no token to an empty occurrence set (neither an
empty file dict nor an empty page list), and every document name
appearing in it is a key of the persisted manifest -- provided the loaded
checkpoint already had no dangling document references (the invariant is
preserved; a cold start establishes it from nothing). -/
theorem c2_persisted_invariant (folder : Folder) (fs : FS) (sigma : List Loc → List Loc)
    (j : IndexJson) (c : Cache)
    (hsig : ∀ (l : List Loc) (x : Loc), x ∈ sigma l ↔ x ∈ l)
    (hinv : ∀ j0, fs.indexFile = some j0 →
      ∀ e ∈ j0, ∀ fp ∈ e.2, fp.1 ∈ keys (fs.cacheFile.getD []))
    (hrun : build_word_map_with_cache folder fs sigma = .ok (j, c)) :
    ∀ e ∈ j, e.2 ≠ [] ∧ ∀ fp ∈ e.2, fp.2 ≠ [] ∧ fp.1 ∈ keys c := by
  rcases build_ok hrun with ⟨wc, hcr, rfl, rfl⟩
  intro e he
  have hcan := save_canonical sigma wc.1
  refine ⟨(hcan.2 e he).1, ?_⟩
  intro fp hfp
  refine ⟨((hcan.2 e he).2.2 fp hfp).1, ?_⟩
  rcases List.exists_mem_of_ne_nil _ (((hcan.2 e he).2.2 fp hfp).1) with ⟨p, hp⟩
  have hpg : p ∈ pagesOf (save_word_map_json sigma wc.1) e.1 fp.1 :=
    (mem_pagesOf_of_canonical hcan e.1 fp.1 p).mpr ⟨e, he, rfl, fp, hfp, rfl, hp⟩
  have hw : wmHas wc.1 e.1 (fp.1, p) := (mem_pagesOf_save sigma hsig wc.1 e.1 fp.1 p).mp hpg
  exact computeRun_docsOK hinv hcr e.1 (fp.1, p) hw

theorem c2_persisted_invariant_witness :
    ([("a.pdf", [1]), ("b.pdf", [1])] : List (Name × List Page)) ≠ [] ∧
    ([1] : List Page) ≠ [] ∧
    "a.pdf" ∈ keys [("a.pdf", (1 : Time)), ("b.pdf", 2)] :=
  ⟨(c2_persisted_invariant folderPair fsEmpty idOrder
      [("y", [("a.pdf", [1]), ("b.pdf", [1])])] [("a.pdf", 1), ("b.pdf", 2)]
      (fun l x => Iff.rfl) (fun j0 h => nomatch h) (by decide)
      ("y", [("a.pdf", [1]), ("b.pdf", [1])]) (by decide)).1,
   ((c2_persisted_invariant folderPair fsEmpty idOrder
      [("y", [("a.pdf", [1]), ("b.pdf", [1])])] [("a.pdf", 1), ("b.pdf", 2)]
      (fun l x => Iff.rfl) (fun j0 h => nomatch h) (by decide)
      ("y", [("a.pdf", [1]), ("b.pdf", [1])]) (by decide)).2
      ("a.pdf", [1]) (by decide)).1,
   ((c2_persisted_invariant folderPair fsEmpty idOrder
      [("y", [("a.pdf", [1]), ("b.pdf", [1])])] [("a.pdf", 1), ("b.pdf", 2)]
      (fun l x => Iff.rfl) (fun j0 h => nomatch h) (by decide)
      ("y", [("a.pdf", [1]), ("b.pdf", [1])]) (by decide)).2
      ("a.pdf", [1]) (by decide)).2⟩

/-- Claim C5 (counterexample): byte-identity fails.  Run 1 (cold start
over folderPair, identity enumeration) persists fsPair1.  Run 2 with no
filesystem changes, when the set enumeration happens to come out reversed
(an equally admissible Python set iteration order, see revOrder_mem),
persists an index file whose inner document keys are in the other order:
the persisted index is not byte-identical, though the manifest is. -/
theorem c5_not_byte_identical :
    run_build folderPair fsEmpty idOrder = .ok fsPair1 ∧
    run_build folderPair fsPair1 revOrder = .ok fsPair2 ∧
    fsPair2.indexFile ≠ fsPair1.indexFile ∧
    fsPair2.cacheFile = fsPair1.cacheFile :=
  ⟨by decide, by decide, by decide, by decide⟩

/-- Claim C5 (amended): running twice in a row with no filesystem changes,
the second run always succeeds.  It persists the first run's manifest
with its stale entries (documents recorded in the manifest but no longer
on disk) filtered out, preserving entry order -- so the manifest is
byte-identical exactly when the first run left no stale entry, as any
run from a clean state does.  The persisted index is unchanged as a
mapping except that stale documents' occurrences are purged: for every
token and document the page list is the same, and empty for a stale
document.  In the no-stale case the token key order is preserved as
well, so the index can then differ from the first run's only in the
order of document keys inside a token's entry, which follows the
arbitrary Python set iteration order (the counterexample); with equal
iteration order it is byte-identical. -/
theorem c5_second_run_semantically_identical (folder : Folder) (fs0 fs1 : FS)
    (sig1 sig2 : List Loc → List Loc)
    (hsig2 : ∀ (l : List Loc) (x : Loc), x ∈ sig2 l ↔ x ∈ l)
    (hnames : (listPdfNames folder).Nodup)
    (hc0 : (keys (fs0.cacheFile.getD [])).Nodup)
    (hrun1 : run_build folder fs0 sig1 = .ok fs1) :
    ∃ fs2, run_build folder fs1 sig2 = .ok fs2 ∧
      ∃ j1 j2 c1 c2, fs1 = ⟨some j1, some c1⟩ ∧ fs2 = ⟨some j2, some c2⟩ ∧
        c2 = c1.filter (fun e => decide (e.1 ∈ listPdfNames folder)) ∧
        ((∀ k ∈ keys c1, k ∈ listPdfNames folder) → c2 = c1 ∧ keys j2 = keys j1) ∧
        (∀ t f, pagesOf j2 t f =
          if f ∈ keys c1 ∧ f ∉ listPdfNames folder then [] else pagesOf j1 t f) := by
  rcases run_build_ok hrun1 with ⟨wc1, hcr1, rfl⟩
  have hcan1 : canonicalIndex (save_word_map_json sig1 wc1.1) := save_canonical _ _
  have hmt : ∀ n ∈ listPdfNames folder, dictFind wc1.2 n = some (mtimeOf folder n) :=
    computeRun_cache_mtimes hcr1
  have hnodc : (keys wc1.2).Nodup := computeRun_cache_nodup hcr1 hc0
  have hsubN : ∀ n ∈ listPdfNames folder, n ∈ keys wc1.2 := fun n hn =>
    mem_keys_of_dictFind_eq_some (hmt n hn)
  by_cases hst : ∀ k ∈ keys wc1.2, k ∈ listPdfNames folder
  · have hperm : (keys wc1.2).Perm (listPdfNames folder) :=
      (List.perm_ext_iff_of_nodup hnodc hnames).mpr
        (fun n => ⟨fun h => hst n h, fun h => hsubN n h⟩)
    have hlen : (listPdfNames folder).length = (keys wc1.2).length := hperm.length_eq.symm
    have hcr2 : computeRun folder ⟨some (save_word_map_json sig1 wc1.1), some wc1.2⟩ =
        .ok (load_existing_word_map_json (save_word_map_json sig1 wc1.1), wc1.2) := by
      rw [computeRun_incr rfl]
      have h1 : dispatchOnCount folder
          (load_existing_word_map_json (save_word_map_json sig1 wc1.1)) wc1.2 =
          .ok (load_existing_word_map_json (save_word_map_json sig1 wc1.1), wc1.2) :=
        dispatchOnCount_zero hlen
      show (dispatchOnCount folder
          (load_existing_word_map_json (save_word_map_json sig1 wc1.1)) wc1.2) >>= _ = _
      rw [h1]
      show rescanModified folder
          (load_existing_word_map_json (save_word_map_json sig1 wc1.1), wc1.2) = _
      exact rescanModified_of_none (modifiedScan_eq_nil hmt)
    have hfid : wc1.2.filter (fun e => decide (e.1 ∈ listPdfNames folder)) = wc1.2 :=
      List.filter_eq_self.mpr
        (fun e he => decide_eq_true (hst e.1 (mem_keys.mpr ⟨e, he, rfl⟩)))
    have hkeq : keys (save_word_map_json sig2
          (load_existing_word_map_json (save_word_map_json sig1 wc1.1))) =
        keys (save_word_map_json sig1 wc1.1) := by
      have hLne : ∀ e ∈ load_existing_word_map_json (save_word_map_json sig1 wc1.1),
          e.2 ≠ [] := entries_ne_nil_load _
      have hLnd : (keys (load_existing_word_map_json (save_word_map_json sig1 wc1.1))).Nodup :=
        nodup_keys_load _
      rw [keys_save_eq sig2 _ hLnd (fun e he => sigma_ne_nil hsig2 (hLne e he))]
      exact keys_load_eq _ hcan1.1
        (fun e he => ⟨(hcan1.2 e he).1, fun fp hfp => ((hcan1.2 e he).2.2 fp hfp).1⟩)
    refine ⟨_, run_build_of_computeRun hcr2,
      save_word_map_json sig1 wc1.1,
      save_word_map_json sig2 (load_existing_word_map_json (save_word_map_json sig1 wc1.1)),
      wc1.2, wc1.2, rfl, rfl, hfid.symm, fun _ => ⟨rfl, hkeq⟩, ?_⟩
    intro t f
    have hcond : ¬ (f ∈ keys wc1.2 ∧ f ∉ listPdfNames folder) := by
      rintro ⟨h1, h2⟩
      exact h2 (hst f h1)
    rw [if_neg hcond]
    apply eq_of_sorted_lt_mem_iff
    · exact pagesOf_sorted_of_canonical (save_canonical sig2 _) t f
    · exact pagesOf_sorted_of_canonical hcan1 t f
    · intro p
      rw [mem_pagesOf_save sig2 hsig2, wmHas_load, mem_pagesOf_of_canonical hcan1]
  · have hex : ∃ k, k ∈ keys wc1.2 ∧ k ∉ listPdfNames folder := by
      by_contra hco
      push_neg at hco
      exact hst hco
    rcases hex with ⟨k0, hk0c, hk0n⟩
    have hlt : (listPdfNames folder).length < (keys wc1.2).length :=
      length_lt_of_ssub hnames hnodc hsubN ⟨k0, hk0c, hk0n⟩
    have hmem_del : ∀ n, n ∈ (keys wc1.2).filter (fun p => decide (p ∉ listPdfNames folder)) ↔
        n ∈ keys wc1.2 ∧ n ∉ listPdfNames folder := by
      intro n
      rw [List.mem_filter]
      simp
    have hdne : (keys wc1.2).filter (fun p => decide (p ∉ listPdfNames folder)) ≠ [] :=
      List.ne_nil_of_mem ((hmem_del k0).mpr ⟨hk0c, hk0n⟩)
    have hdsub : ∀ d ∈ (keys wc1.2).filter (fun p => decide (p ∉ listPdfNames folder)),
        d ∈ keys wc1.2 := fun d hd => ((hmem_del d).mp hd).1
    have hcfind : ∀ n ∈ listPdfNames folder,
        dictFind (wc1.2.filter (fun e => decide (e.1 ∉
          (keys wc1.2).filter (fun p => decide (p ∉ listPdfNames folder))))) n =
          some (mtimeOf folder n) := by
      intro n hn
      rw [dictFind_filter_not, if_neg (fun hf => ((hmem_del n).mp hf).2 hn)]
      exact hmt n hn
    have hcr2 : computeRun folder ⟨some (save_word_map_json sig1 wc1.1), some wc1.2⟩ =
        .ok (removeLocsOfDocs
            ((keys wc1.2).filter (fun p => decide (p ∉ listPdfNames folder)))
            (load_existing_word_map_json (save_word_map_json sig1 wc1.1)),
          wc1.2.filter (fun e => decide (e.1 ∉
            (keys wc1.2).filter (fun p => decide (p ∉ listPdfNames folder))))) := by
      rw [computeRun_incr rfl]
      have h1 : dispatchOnCount folder
          (load_existing_word_map_json (save_word_map_json sig1 wc1.1)) wc1.2 =
          pdf_check_deleted
            ((keys wc1.2).filter (fun p => decide (p ∉ listPdfNames folder)))
            (load_existing_word_map_json (save_word_map_json sig1 wc1.1)) wc1.2 :=
        dispatchOnCount_neg hlt
      show (dispatchOnCount folder
          (load_existing_word_map_json (save_word_map_json sig1 wc1.1)) wc1.2) >>= _ = _
      rw [h1, pdf_check_deleted_ok_of_subset hdne hdsub]
      show rescanModified folder
          (removeLocsOfDocs
            ((keys wc1.2).filter (fun p => decide (p ∉ listPdfNames folder)))
            (load_existing_word_map_json (save_word_map_json sig1 wc1.1)),
          wc1.2.filter (fun e => decide (e.1 ∉
            (keys wc1.2).filter (fun p => decide (p ∉ listPdfNames folder))))) = _
      exact rescanModified_of_none (modifiedScan_eq_nil hcfind)
    have hcflt : wc1.2.filter (fun e => decide (e.1 ∉
        (keys wc1.2).filter (fun p => decide (p ∉ listPdfNames folder)))) =
        wc1.2.filter (fun e => decide (e.1 ∈ listPdfNames folder)) := by
      apply List.filter_congr
      intro e he
      have hek : e.1 ∈ keys wc1.2 := mem_keys.mpr ⟨e, he, rfl⟩
      by_cases h : e.1 ∈ listPdfNames folder
      · simp [h, hmem_del]
      · simp [h, hmem_del, hek]
    refine ⟨_, run_build_of_computeRun hcr2,
      save_word_map_json sig1 wc1.1,
      save_word_map_json sig2 (removeLocsOfDocs
        ((keys wc1.2).filter (fun p => decide (p ∉ listPdfNames folder)))
        (load_existing_word_map_json (save_word_map_json sig1 wc1.1))),
      wc1.2,
      wc1.2.filter (fun e => decide (e.1 ∉
        (keys wc1.2).filter (fun p => decide (p ∉ listPdfNames folder)))),
      rfl, rfl, hcflt, ?_, ?_⟩
    · intro hall
      exact absurd (hall k0 hk0c) hk0n
    · intro t f
      by_cases hcond : f ∈ keys wc1.2 ∧ f ∉ listPdfNames folder
      · rw [if_pos hcond, List.eq_nil_iff_forall_not_mem]
        intro p hp
        rw [mem_pagesOf_save sig2 hsig2, wmHas_removeLocs] at hp
        exact hp.2 ((hmem_del f).mpr hcond)
      · rw [if_neg hcond]
        apply eq_of_sorted_lt_mem_iff
        · exact pagesOf_sorted_of_canonical (save_canonical sig2 _) t f
        · exact pagesOf_sorted_of_canonical hcan1 t f
        · intro p
          rw [mem_pagesOf_save sig2 hsig2, wmHas_removeLocs, wmHas_load,
            mem_pagesOf_of_canonical hcan1]
          constructor
          · rintro ⟨h1, _⟩
            exact h1
          · intro h1
            refine ⟨h1, ?_⟩
            intro hf
            exact hcond ((hmem_del f).mp hf)

theorem c5_second_run_semantically_identical_witness :
    ∃ fs2, run_build folderOne ⟨some [("x", [("a.pdf", [1])])], some [("a.pdf", 1)]⟩
        idOrder = .ok fs2 ∧
      ∃ j1 j2 c1 c2,
        (⟨some [("x", [("a.pdf", [1])])], some [("a.pdf", 1)]⟩ : FS) = ⟨some j1, some c1⟩ ∧
        fs2 = ⟨some j2, some c2⟩ ∧
        c2 = c1.filter (fun e => decide (e.1 ∈ listPdfNames folderOne)) ∧
        ((∀ k ∈ keys c1, k ∈ listPdfNames folderOne) → c2 = c1 ∧ keys j2 = keys j1) ∧
        (∀ t f, pagesOf j2 t f =
          if f ∈ keys c1 ∧ f ∉ listPdfNames folderOne then [] else pagesOf j1 t f) :=
  c5_second_run_semantically_identical folderOne fsEmpty
    ⟨some [("x", [("a.pdf", [1])])], some [("a.pdf", 1)]⟩ idOrder idOrder
    (fun l x => Iff.rfl) (by decide) (by decide) (by decide)
